import Mathlib

/-!
# gofiti: glyph compositor, histogram preview and commit schedule

A shallow embedding of `buildScript` and `printHistogram` from `main.go`.

Modelling conventions.

* A `[]byte` row is a `List Nat`; the histogram buffer `pixels [][]byte` is a
  `List (List Nat)`.  An index expression that Go would reject at run time
  ("index out of range") makes the embedded function return `none`.
* `Symbol`, its method `Width()` and the table `PixelRune` are declared in a
  file that is not part of `main.go`.  `Symbol` is taken as a record holding the
  pixel rows and the value returned by `Width()`; `PixelRune` is a parameter.
  `Width()` is an `int` that measures an in-memory slice, hence the sums
  `curcol + l.Width()` are exact integers.  Every statement that depends on
  these sums assumes that `Width()` is tied to the length of a row of the glyph
  (`Symbol.wellFormed`, `Symbol.indexSafe` or `Symbol.rowWidth`).
* The product `int(pixels[r][c])*multi` is an `int` product of two scalars and
  wraps modulo `2^64` (64-bit `int`).
* `time.Time` is an instant on an unbounded time line counted in nanoseconds,
  `Add` adds a duration (the library's saturation at the ends of its range is
  not modelled).
* `bytes.Buffer` is the sequence of pieces written to it; `Piece.render`
  gives the text of a piece, `time.Time.Format` being a parameter.
* The globals `dryrun` and `usessh` are explicit arguments; logger calls have
  no effect on the result and are left out of `buildScript`, except that the
  arguments of `logger.Debugf` are still evaluated.  The `logger.Errorf` calls
  of `printHistogram` are collected by `histogramLog`, which follows the same
  branches as `printHistogram`.
* `renderTrace` lists the states of the rendering loop and `renderAccesses` the
  index expressions it evaluates; `composite_isSome_iff` ties the latter to the
  compositor.
-/

namespace Gofiti

/-- A glyph: the rows `l.Pixels` and the value of `l.Width()`. -/
structure Symbol where
  Pixels : List (List Nat)
  Width : Int
deriving DecidableEq, Repr

/-- The histogram buffer `pixels [][]byte`. -/
abbrev Grid := List (List Nat)

/-- The read `pixels[r][c]`; `none` when an index is out of range. -/
def readCell (pixels : Grid) (r c : Nat) : Option Nat :=
  match pixels[r]? with
  | none => none
  | some row => row[c]?

/-- The store `pixels[r][i] = v` for an `int` index `i`; `none` when an index
is out of range. -/
def writeCell (pixels : Grid) (r : Nat) (i : Int) (v : Nat) : Option Grid :=
  match pixels[r]? with
  | none => none
  | some row =>
    if 0 ≤ i ∧ i.toNat < row.length then some (pixels.set r (row.set i.toNat v))
    else none

/-- The buffer built by `make([][]byte, 7, 7)` and `make([]byte, 52, 52)`. -/
def emptyGrid : Grid := List.replicate 7 (List.replicate 52 0)

/-- State of the rendering loop of `buildScript`: the buffer, the offset
`curcol`, and (ghost) the number of symbols whose copy branch was executed. -/
structure Layout where
  pixels : Grid
  curcol : Int
  placed : Nat
deriving DecidableEq, Repr

/-- The loop `for c := 0; c < 52-curcol; c++` of `buildScript` for one row
`r`, over the remaining values of `c`; the `else` branch is the `break`. -/
def copyRow (l : Symbol) (curcol : Int) (r : Nat) : List Nat → Grid → Option Grid
  | [], pixels => some pixels
  | c :: cs, pixels =>
    if (c : Int) < l.Width then
      match readCell l.Pixels r c with
      | none => none
      | some v =>
        match writeCell pixels r ((c : Int) + curcol) v with
        | none => none
        | some pixels1 => copyRow l curcol r cs pixels1
    else some pixels

/-- The loop `for r := 0; r < 7; r++` of `buildScript`, over the remaining
values of `r`. -/
def copySymbol (l : Symbol) (curcol : Int) : List Nat → Grid → Option Grid
  | [], pixels => some pixels
  | r :: rs, pixels =>
    match copyRow l curcol r (List.range (52 - curcol).toNat) pixels with
    | none => none
    | some pixels1 => copySymbol l curcol rs pixels1

/-- The loop `for _, l := range symbols` of `buildScript`; the `else` branch
("Ran out of room") is the `break`. -/
def renderSymbols : List Symbol → Layout → Option Layout
  | [], st => some st
  | l :: ls, st =>
    if st.curcol + l.Width < 52 then
      match copySymbol l st.curcol (List.range 7) st.pixels with
      | none => none
      | some pixels1 => renderSymbols ls ⟨pixels1, st.curcol + l.Width, st.placed + 1⟩
    else some st

/-- The compositor of `buildScript`: empty buffer, `curcol := 1`, then the
rendering loop. -/
def composite (symbols : List Symbol) : Option Layout :=
  renderSymbols symbols ⟨emptyGrid, 1, 0⟩

/-- A counted loop `for i := 0; i < n; i++` whose body may fail. -/
def forRange {σ : Type} (body : Nat → σ → Option σ) : List Nat → σ → Option σ
  | [], s => some s
  | i :: is, s =>
    match body i s with
    | none => none
    | some s1 => forRange body is s1

/-- Body of the inner loop of `printHistogram` for row `r`, column `c`. -/
def printCell (PixelRune : Nat → Option Char) (pixels : Grid) (r c : Nat)
    (pbuf : String) : Option String :=
  match pixels[r]? with
  | none => none
  | some row =>
    if r < row.length then
      match row[c]? with
      | none => none
      | some b =>
        match PixelRune b with
        | some sym => some (pbuf.push sym)
        | none => some (pbuf.push '!')
    else some (pbuf.push '!')

/-- Body of the outer loop of `printHistogram` for row `r`. -/
def printRow (PixelRune : Nat → Option Char) (pixels : Grid) (r : Nat)
    (pbuf : String) : Option String :=
  match forRange (printCell PixelRune pixels r) (List.range 52) (pbuf ++ "#    ") with
  | none => none
  | some pbuf1 => some (pbuf1.push '\n')

/-- The function `printHistogram`. -/
def printHistogram (PixelRune : Nat → Option Char) (pixels : Grid) : Option String :=
  match forRange (printRow PixelRune pixels) (List.range 7)
      "\n# ----- Histogram Preview -----\n\n" with
  | none => none
  | some pbuf => some (pbuf.push '\n')

/-- An instant `time.Time`, in nanoseconds. -/
structure Time where
  nsec : Int
deriving DecidableEq, Repr

/-- The duration `time.Hour`, in nanoseconds. -/
def Hour : Int := 3600000000000

/-- The method `Time.Add`. -/
def Time.Add (t : Time) (d : Int) : Time := ⟨t.nsec + d⟩

/-- A 64-bit `int` result: the value of `x` modulo `2^64`, in
`-2^63 .. 2^63 - 1`. -/
def wrapInt (x : Int) : Int :=
  (x + 9223372036854775808) % 18446744073709551616 - 9223372036854775808

/-- One `WriteString` into the output buffer of `buildScript`. -/
inductive Piece where
  | header (repo : String)
  | preview (text : String)
  | commit (date : Time)
  | footer (usessh : Bool) (user repo : String)
deriving DecidableEq, Repr

/-- The text of a piece: the `Sprintf` templates of `buildScript`, with
`format` standing for `Time.Format("2006-01-02T15:04:05")`. -/
def Piece.render (format : Time → String) : Piece → String
  | .header repo =>
    "#!/bin/bash\ngit init " ++ repo ++ "\ncd " ++ repo
      ++ "\ntouch README.md\ngit add README.md\n"
  | .preview text => text
  | .commit date =>
    "GIT_AUTHOR_DATE=" ++ format date ++ " GIT_COMMITTER_DATE=" ++ format date
      ++ " git commit --allow-empty -m \"Rewriting History!\" > /dev/null\n"
  | .footer true user repo =>
    "git remote add origin git@github.com:" ++ user ++ "/" ++ repo
      ++ ".git\ngit pull\ngit push -u origin master\n"
  | .footer false user repo =>
    "git remote add origin https://github.com/" ++ user ++ "/" ++ repo
      ++ ".git\ngit pull\ngit push -u origin master\n"

/-- State of the schedule walk of `buildScript`: the date cursor `startdate`,
the output buffer, and (ghost) the cells visited so far, each with the value
the cursor had when the cell was visited. -/
structure Sched where
  startdate : Time
  buffer : List Piece
  visited : List (Nat × Nat × Time)
deriving DecidableEq, Repr

/-- The loop `for i := 0; i < n; i++ { buffer.WriteString(str) }`. -/
def writeCommits (date : Time) : Nat → List Piece → List Piece
  | 0, buffer => buffer
  | n + 1, buffer => writeCommits date n (buffer ++ [Piece.commit date])

/-- Body of the inner schedule loop of `buildScript` for column `c`, row `r`. -/
def scheduleCell (pixels : Grid) (multi : Int) (c r : Nat) (s : Sched) : Option Sched :=
  match readCell pixels r c with
  | none => none
  | some p =>
    some ⟨s.startdate.Add (Hour * 24),
      if p ≠ 0 then writeCommits s.startdate (wrapInt ((p : Int) * multi)).toNat s.buffer
      else s.buffer,
      s.visited ++ [(c, r, s.startdate)]⟩

/-- The schedule walk of `buildScript`: columns `0..51` outer, rows `0..6`
inner. -/
def schedule (pixels : Grid) (multi : Int) (s : Sched) : Option Sched :=
  forRange (fun c s1 => forRange (scheduleCell pixels multi c) (List.range 7) s1)
    (List.range 52) s

/-- The sequence of writes `buildScript` makes into its buffer. -/
def buildScriptBuffer (PixelRune : Nat → Option Char) (dryrun usessh : Bool)
    (user repo _text : String) (multi : Int) (startdate : Time)
    (symbols : List Symbol) : Option (List Piece) :=
  match printHistogram PixelRune emptyGrid with
  | none => none
  | some _ =>
    match composite symbols with
    | none => none
    | some st =>
      match printHistogram PixelRune st.pixels with
      | none => none
      | some text =>
        if dryrun then some [Piece.preview text]
        else
          match schedule st.pixels multi
              ⟨startdate.Add ((Hour * 24) * 7), [Piece.header repo, Piece.preview text], []⟩ with
          | none => none
          | some s => some (s.buffer ++ [Piece.footer usessh user repo])

/-- The function `buildScript`: the contents of the buffer as one string. -/
def buildScript (format : Time → String) (PixelRune : Nat → Option Char)
    (dryrun usessh : Bool) (user repo text : String) (multi : Int) (startdate : Time)
    (symbols : List Symbol) : Option String :=
  match buildScriptBuffer PixelRune dryrun usessh user repo text multi startdate symbols with
  | none => none
  | some buffer => some (String.join (buffer.map (Piece.render format)))

/-! ## Predicates, specification-side definitions and sample data -/

/-- A buffer of 7 rows of 52 cells. -/
def gridShape (pixels : Grid) : Prop :=
  pixels.length = 7 ∧ ∀ row ∈ pixels, row.length = 52

instance (pixels : Grid) : Decidable (gridShape pixels) := by
  unfold gridShape; infer_instance

/-- The glyph invariant of the data model: 7 rows, each of length `Width()`. -/
def Symbol.wellFormed (l : Symbol) : Prop :=
  l.Pixels.length = 7 ∧ ∀ row ∈ l.Pixels, (row.length : Int) = l.Width

instance (l : Symbol) : Decidable l.wellFormed := by
  unfold Symbol.wellFormed; infer_instance

/-- What the rendering loop needs of a glyph to stay in range: a non-negative
`Width()`, at least 7 rows, every row at least `Width()` long. -/
def Symbol.indexSafe (l : Symbol) : Prop :=
  0 ≤ l.Width ∧ 7 ≤ l.Pixels.length ∧ ∀ row ∈ l.Pixels, l.Width ≤ (row.length : Int)

instance (l : Symbol) : Decidable l.indexSafe := by
  unfold Symbol.indexSafe; infer_instance

/-- The derived attribute of the data model: `Width()` is the length of one of the
glyph's rows.  It is then the length of a slice in memory: non-negative, and so far
below the `int` range that the sums `curcol + l.Width()` of the rendering loop do not
wrap. -/
def Symbol.rowWidth (l : Symbol) : Prop :=
  ∃ row ∈ l.Pixels, (row.length : Int) = l.Width

instance (l : Symbol) : Decidable l.rowWidth := by
  unfold Symbol.rowWidth; infer_instance

/-- The column at which symbol number `k` starts when the layout starts at
`curcol`: `curcol` plus the widths of the symbols before it. -/
def offsetOf (curcol : Int) (symbols : List Symbol) (k : Nat) : Int :=
  curcol + ((symbols.take k).map Symbol.Width).sum

/-- The number of leading symbols that pass the guard `curcol+l.Width() < 52`
of the rendering loop, the offset advancing as in the loop. -/
def fitCount : Int → List Symbol → Nat
  | _, [] => 0
  | curcol, l :: ls => if curcol + l.Width < 52 then fitCount (curcol + l.Width) ls + 1 else 0

/-- The glyph "H" of the scenario: 7 rows, width 4. -/
def glyphH : Symbol :=
  ⟨[[1, 0, 0, 1], [1, 0, 0, 1], [1, 0, 0, 1], [1, 1, 1, 1], [1, 0, 0, 1], [1, 0, 0, 1],
    [1, 0, 0, 1]], 4⟩

/-- The glyph "I" of the scenario: 7 rows, width 3. -/
def glyphI : Symbol :=
  ⟨[[3, 3, 3], [0, 1, 0], [0, 1, 0], [0, 1, 0], [0, 1, 0], [0, 1, 0], [3, 3, 3]], 3⟩

/-- A full block of 7 rows and `w` columns of intensity `v`. -/
def bar (w v : Nat) : Symbol := ⟨List.replicate 7 (List.replicate w v), w⟩

/-- The date the schedule walk gives the cell at column `c`, row `r` when the
cursor starts at `d0`: `d0` plus `7*c + r` days. -/
def cellDate (d0 : Time) (c r : Nat) : Time :=
  d0.Add (((7 * c + r : Nat) : Int) * (Hour * 24))

/-- The number of commit statements written for the cell at column `c`, row `r`:
the loop bound `int(pixels[r][c])*multi`, no statement when it is not positive. -/
def cellCount (pixels : Grid) (multi : Int) (c r : Nat) : Nat :=
  match readCell pixels r c with
  | none => 0
  | some p => (wrapInt ((p : Int) * multi)).toNat

/-- The commit statements of the cell at column `c`, row `r`. -/
def cellCommits (pixels : Grid) (multi : Int) (d0 : Time) (c r : Nat) : List Piece :=
  List.replicate (cellCount pixels multi c r) (Piece.commit (cellDate d0 c r))

/-- The commit statements of rows `0 .. n-1` of column `c`, in row order. -/
def rowsCommits (pixels : Grid) (multi : Int) (d0 : Time) (c n : Nat) : List Piece :=
  ((List.range n).map (cellCommits pixels multi d0 c)).flatten

/-- The commit statements of columns `0 .. n-1`, column by column (column-major
order). -/
def scheduleCommits (pixels : Grid) (multi : Int) (d0 : Time) (n : Nat) : List Piece :=
  ((List.range n).map (fun c => rowsCommits pixels multi d0 c 7)).flatten

/-- The first `n` cells in column-major order, cell number `k` being column `k / 7`,
row `k % 7`, with the date `d0` plus `k` days. -/
def visitedCells (d0 : Time) (n : Nat) : List (Nat × Nat × Time) :=
  (List.range n).map (fun k => (k / 7, k % 7, d0.Add ((k : Int) * (Hour * 24))))

/-- The symbol shown for intensity level `b`: its entry in the table, and the
fallback `'!'` for a level that is not in the table. -/
def symbolOf (PixelRune : Nat → Option Char) (b : Nat) : Char :=
  match PixelRune b with
  | some sym => sym
  | none => '!'

/-- The symbol shown for the cell at row `r`, column `c`. -/
def symbolAt (PixelRune : Nat → Option Char) (pixels : Grid) (r c : Nat) : Char :=
  match readCell pixels r c with
  | some b => symbolOf PixelRune b
  | none => '!'

/-- Line `r` of the preview as the specification words it: the margin `"#    "`, 52
symbols, a newline. -/
def previewLine (PixelRune : Nat → Option Char) (pixels : Grid) (r : Nat) : String :=
  "#    " ++ String.mk ((List.range 52).map (symbolAt PixelRune pixels r)) ++ "\n"

/-- The preview as the specification words it: the banner, 7 lines, a blank line. -/
def previewText (PixelRune : Nat → Option Char) (pixels : Grid) : String :=
  "\n# ----- Histogram Preview -----\n\n"
    ++ String.join ((List.range 7).map (previewLine PixelRune pixels)) ++ "\n"

/-- The dates of the commit statements of a buffer, in the order written. -/
def commitDates : List Piece → List Time
  | [] => []
  | Piece.commit date :: ps => date :: commitDates ps
  | _ :: ps => commitDates ps

/-- A glyph of width 1 whose only populated cell is its top cell, of intensity `v`. -/
def spot (v : Nat) : Symbol := ⟨[[v], [0], [0], [0], [0], [0], [0]], 1⟩

/-- A sample level-to-symbol table: levels 0 to 4. -/
def sampleRune (b : Nat) : Option Char :=
  if b = 0 then some ' ' else if b ≤ 4 then some '#' else none

/-- The states of the rendering loop of `buildScript` at the head of each iteration,
followed by the state in which the loop is left (end of `symbols`, the `break` of the
overflow branch, or a run-time panic inside the copy). -/
def renderTrace : List Symbol → Layout → List Layout
  | [], st => [st]
  | l :: ls, st =>
    if st.curcol + l.Width < 52 then
      match copySymbol l st.curcol (List.range 7) st.pixels with
      | none => [st]
      | some pixels1 => st :: renderTrace ls ⟨pixels1, st.curcol + l.Width, st.placed + 1⟩
    else [st]

/-- One `logger.Errorf` call of `printHistogram`. -/
inductive Diagnostic where
  | invalidPixel (b : Nat)
  | unallocated (r c : Nat)
deriving DecidableEq, Repr

/-- The `logger.Errorf` call, if any, of the inner loop body of `printHistogram` for
row `r`, column `c`: same branches as `printCell`. -/
def logCell (PixelRune : Nat → Option Char) (pixels : Grid) (r c : Nat)
    (log : List Diagnostic) : Option (List Diagnostic) :=
  match pixels[r]? with
  | none => none
  | some row =>
    if r < row.length then
      match row[c]? with
      | none => none
      | some b =>
        match PixelRune b with
        | some _ => some log
        | none => some (log ++ [Diagnostic.invalidPixel b])
    else some (log ++ [Diagnostic.unallocated r c])

/-- The `logger.Errorf` calls of `printHistogram`, in order. -/
def histogramLog (PixelRune : Nat → Option Char) (pixels : Grid) :
    Option (List Diagnostic) :=
  forRange (fun r log => forRange (logCell PixelRune pixels r) (List.range 52) log)
    (List.range 7) []

/-- Every cell of the buffer satisfies `P`. -/
def gridAll (P : Nat → Prop) (pixels : Grid) : Prop :=
  ∀ row ∈ pixels, ∀ b ∈ row, P b

/-- The multiplier computed in `main` from the highest daily count:
`getHighestCommitCount(doc) / 3 * 2`, truncating `int` division, then the `int`
product. -/
def multiplier (highest : Int) : Int :=
  wrapInt (wrapInt (Int.tdiv highest 3) * 2)

/-- An index expression evaluated by the rendering loop of `buildScript`: the read
`l.Pixels[r][c]` of a glyph cell or the store `pixels[r][i] = …` into the buffer. -/
inductive Access where
  | glyphRead (l : Symbol) (r c : Nat)
  | gridWrite (r : Nat) (i : Int)
deriving DecidableEq

/-- The index expressions of the loop `for c := 0; c < 52-curcol; c++` for row `r`, in
order, when no access fails: the loop condition and the `break` do not depend on the
values read. -/
def copyRowAccesses (l : Symbol) (curcol : Int) (r : Nat) : List Nat → List Access
  | [] => []
  | c :: cs =>
    if (c : Int) < l.Width then
      Access.glyphRead l r c :: Access.gridWrite r ((c : Int) + curcol)
        :: copyRowAccesses l curcol r cs
    else []

/-- The index expressions of the loop `for r := 0; r < 7; r++`. -/
def copySymbolAccesses (l : Symbol) (curcol : Int) : List Nat → List Access
  | [] => []
  | r :: rs =>
    copyRowAccesses l curcol r (List.range (52 - curcol).toNat)
      ++ copySymbolAccesses l curcol rs

/-- The index expressions of the rendering loop started at offset `curcol`. -/
def renderAccesses : List Symbol → Int → List Access
  | [], _ => []
  | l :: ls, curcol =>
    if curcol + l.Width < 52 then
      copySymbolAccesses l curcol (List.range 7) ++ renderAccesses ls (curcol + l.Width)
    else []

/-- An access is in bounds: the glyph cell exists; the buffer cell is one of the
7 rows of 52 cells. -/
def Access.inBounds : Access → Prop
  | Access.glyphRead l r c => (readCell l.Pixels r c).isSome = true
  | Access.gridWrite r i => r < 7 ∧ 0 ≤ i ∧ i < 52

/-! ## Lemmas on the compositor -/

theorem gridShape_emptyGrid : gridShape emptyGrid := by decide

theorem gridShape_row {pixels : Grid} (h : gridShape pixels) {r : Nat} (hr : r < 7) :
    ∃ row, pixels[r]? = some row ∧ row.length = 52 := by
  have hlt : r < pixels.length := by rw [h.1]; exact hr
  exact ⟨pixels[r], List.getElem?_eq_getElem hlt, h.2 _ (List.getElem_mem _)⟩

theorem readCell_isSome {pixels : Grid} (h : gridShape pixels) {r c : Nat}
    (hr : r < 7) (hc : c < 52) : ∃ p, readCell pixels r c = some p := by
  obtain ⟨row, hrow, hlen⟩ := gridShape_row h hr
  have hlt : c < row.length := by rw [hlen]; exact hc
  exact ⟨row[c], by simp [readCell, hrow, List.getElem?_eq_getElem hlt]⟩

theorem writeCell_spec {pixels : Grid} (h : gridShape pixels) {r : Nat} (hr : r < 7)
    {i : Int} (h0 : 0 ≤ i) (h52 : i < 52) (v : Nat) :
    ∃ pixels1, writeCell pixels r i v = some pixels1 ∧ gridShape pixels1 ∧
      ∀ r1 c1, readCell pixels1 r1 c1 =
        if r1 = r ∧ (c1 : Int) = i then some v else readCell pixels r1 c1 := by
  obtain ⟨row, hrow, hlen⟩ := gridShape_row h hr
  have hlt : i.toNat < row.length := by rw [hlen]; omega
  refine ⟨pixels.set r (row.set i.toNat v), ?_, ?_, ?_⟩
  · simp [writeCell, hrow, h0, hlt]
  · refine ⟨by rw [List.length_set]; exact h.1, ?_⟩
    intro row1 hmem
    rcases List.mem_or_eq_of_mem_set hmem with h1 | h1
    · exact h.2 _ h1
    · rw [h1, List.length_set]; exact hlen
  · intro r1 c1
    have hrl : r < pixels.length := by rw [h.1]; exact hr
    by_cases hr1 : r1 = r
    · subst hr1
      by_cases hc1 : (c1 : Int) = i
      · have : i.toNat = c1 := by omega
        simp [readCell, List.getElem?_set, hrl, hc1, this ▸ hlt, this]
      · have : i.toNat ≠ c1 := by omega
        simp [readCell, List.getElem?_set, hrl, hc1, this, hrow]
    · have : r ≠ r1 := fun e => hr1 e.symm
      simp [readCell, List.getElem?_set, hr1, this]

theorem indexSafe_read {l : Symbol} (h : l.indexSafe) {r c : Nat} (hr : r < 7)
    (hc : (c : Int) < l.Width) : ∃ v, readCell l.Pixels r c = some v := by
  have hlt : r < l.Pixels.length := by have := h.2.1; omega
  have hlen := h.2.2 _ (List.getElem_mem hlt)
  have hc1 : c < (l.Pixels[r]).length := by omega
  exact ⟨(l.Pixels[r])[c], by simp [readCell, List.getElem?_eq_getElem hlt, List.getElem?_eq_getElem hc1]⟩

theorem indexSafe_width_nonneg {l : Symbol} (h : l.indexSafe) : 0 ≤ l.Width := h.1

theorem wellFormed_indexSafe {l : Symbol} (h : l.wellFormed) : l.indexSafe := by
  have hlt : 0 < l.Pixels.length := by rw [h.1]; decide
  have hlen := h.2 _ (List.getElem_mem hlt)
  refine ⟨by omega, by rw [h.1], ?_⟩
  intro row hrow
  rw [← h.2 row hrow]

theorem allIndexSafe {symbols : List Symbol} (h : ∀ s ∈ symbols, s.wellFormed) :
    ∀ s ∈ symbols, s.indexSafe :=
  fun s hs => wellFormed_indexSafe (h s hs)

theorem wellFormed_read {l : Symbol} (h : l.wellFormed) {r c : Nat} (hr : r < 7)
    (hc : (c : Int) < l.Width) : ∃ v, readCell l.Pixels r c = some v :=
  indexSafe_read (wellFormed_indexSafe h) hr hc

theorem copyRow_spec {l : Symbol} (hl : l.indexSafe) {curcol : Int} (h0 : 0 ≤ curcol)
    {r : Nat} (hr : r < 7) :
    ∀ (n a : Nat) (pixels : Grid), gridShape pixels → (a : Int) + n + curcol ≤ 52 →
      ∃ pixels1, copyRow l curcol r (List.range' a n) pixels = some pixels1 ∧
        gridShape pixels1 ∧
        ∀ r1 c1, readCell pixels1 r1 c1 =
          if r1 = r ∧ curcol + a ≤ c1 ∧ (c1 : Int) < curcol + a + n ∧ (c1 : Int) < curcol + l.Width
          then readCell l.Pixels r (c1 - curcol).toNat else readCell pixels r1 c1 := by
  intro n
  induction n with
  | zero =>
    intro a pixels hs _
    refine ⟨pixels, by simp [copyRow], hs, ?_⟩
    intro r1 c1
    have : ¬ (r1 = r ∧ curcol + a ≤ c1 ∧ (c1 : Int) < curcol + a + (0 : Nat) ∧
        (c1 : Int) < curcol + l.Width) := by omega
    rw [if_neg this]
  | succ n ih =>
    intro a pixels hs hb
    rw [List.range'_succ]
    by_cases hw : (a : Int) < l.Width
    · obtain ⟨v, hv⟩ := indexSafe_read hl hr hw
      obtain ⟨p1, hp1, hs1, hc1⟩ :=
        writeCell_spec hs hr (i := (a : Int) + curcol) (by omega) (by omega) v
      obtain ⟨p2, hp2, hs2, hc2⟩ := ih (a + 1) p1 hs1 (by push_cast; omega)
      refine ⟨p2, by simp [copyRow, hw, hv, hp1, hp2], hs2, ?_⟩
      intro r1 c1
      rw [hc2, hc1]
      by_cases hrr : r1 = r
      · by_cases hca : (c1 : Int) = a + curcol
        · have e : (c1 - curcol).toNat = a := by omega
          have c1' : ¬ (r1 = r ∧ curcol + ((a + 1 : Nat) : Int) ≤ c1 ∧
              (c1 : Int) < curcol + ((a + 1 : Nat) : Int) + n ∧ (c1 : Int) < curcol + l.Width) := by
            push_cast; omega
          have c2 : (r1 = r ∧ curcol + (a : Int) ≤ c1 ∧
              (c1 : Int) < curcol + a + ((n + 1 : Nat) : Int) ∧ (c1 : Int) < curcol + l.Width) := by
            push_cast; omega
          rw [if_neg c1', if_pos c2, if_pos ⟨hrr, hca⟩, e, hv]
        · by_cases c2 : (r1 = r ∧ curcol + (a : Int) ≤ c1 ∧
              (c1 : Int) < curcol + a + ((n + 1 : Nat) : Int) ∧ (c1 : Int) < curcol + l.Width)
          · have c1' : (r1 = r ∧ curcol + ((a + 1 : Nat) : Int) ≤ c1 ∧
                (c1 : Int) < curcol + ((a + 1 : Nat) : Int) + n ∧ (c1 : Int) < curcol + l.Width) := by
              push_cast at c2 ⊢; omega
            rw [if_pos c1', if_pos c2]
          · have c1' : ¬ (r1 = r ∧ curcol + ((a + 1 : Nat) : Int) ≤ c1 ∧
                (c1 : Int) < curcol + ((a + 1 : Nat) : Int) + n ∧ (c1 : Int) < curcol + l.Width) := by
              push_cast at c2 ⊢; omega
            have c3 : ¬ (r1 = r ∧ (c1 : Int) = a + curcol) := fun h => hca h.2
            rw [if_neg c1', if_neg c2, if_neg c3]
      · have c1' : ¬ (r1 = r ∧ curcol + ((a + 1 : Nat) : Int) ≤ c1 ∧
            (c1 : Int) < curcol + ((a + 1 : Nat) : Int) + n ∧ (c1 : Int) < curcol + l.Width) :=
          fun h => hrr h.1
        have c2 : ¬ (r1 = r ∧ curcol + (a : Int) ≤ c1 ∧
            (c1 : Int) < curcol + a + ((n + 1 : Nat) : Int) ∧ (c1 : Int) < curcol + l.Width) :=
          fun h => hrr h.1
        have c3 : ¬ (r1 = r ∧ (c1 : Int) = a + curcol) := fun h => hrr h.1
        rw [if_neg c1', if_neg c2, if_neg c3]
    · refine ⟨pixels, by simp [copyRow, hw], hs, ?_⟩
      intro r1 c1
      have : ¬ (r1 = r ∧ curcol + (a : Int) ≤ c1 ∧
          (c1 : Int) < curcol + a + ((n + 1 : Nat) : Int) ∧ (c1 : Int) < curcol + l.Width) := by
        omega
      rw [if_neg this]

/-- One row of a symbol that fits: the cells `curcol .. curcol + Width - 1` of row
`r` receive the glyph row, every other cell is kept. -/
theorem copyRow_full {l : Symbol} (hl : l.indexSafe) {curcol : Int} (h0 : 0 ≤ curcol)
    (hfit : curcol + l.Width < 52) {r : Nat} (hr : r < 7) {pixels : Grid}
    (hs : gridShape pixels) :
    ∃ pixels1, copyRow l curcol r (List.range (52 - curcol).toNat) pixels = some pixels1 ∧
      gridShape pixels1 ∧
      ∀ r1 c1, readCell pixels1 r1 c1 =
        if r1 = r ∧ curcol ≤ c1 ∧ (c1 : Int) < curcol + l.Width
        then readCell l.Pixels r (c1 - curcol).toNat else readCell pixels r1 c1 := by
  have hw := indexSafe_width_nonneg hl
  obtain ⟨p1, hp1, hs1, hc1⟩ :=
    copyRow_spec hl h0 hr (52 - curcol).toNat 0 pixels hs (by omega)
  rw [List.range_eq_range']
  refine ⟨p1, hp1, hs1, ?_⟩
  intro r1 c1
  rw [hc1]
  by_cases c : (r1 = r ∧ curcol ≤ c1 ∧ (c1 : Int) < curcol + l.Width)
  · rw [if_pos c, if_pos (by omega)]
  · rw [if_neg c, if_neg (by omega)]

theorem copySymbol_spec {l : Symbol} (hl : l.indexSafe) {curcol : Int} (h0 : 0 ≤ curcol)
    (hfit : curcol + l.Width < 52) :
    ∀ (n a : Nat) (pixels : Grid), gridShape pixels → a + n ≤ 7 →
      ∃ pixels1, copySymbol l curcol (List.range' a n) pixels = some pixels1 ∧
        gridShape pixels1 ∧
        ∀ r1 c1, readCell pixels1 r1 c1 =
          if (a ≤ r1 ∧ r1 < a + n) ∧ curcol ≤ c1 ∧ (c1 : Int) < curcol + l.Width
          then readCell l.Pixels r1 (c1 - curcol).toNat else readCell pixels r1 c1 := by
  intro n
  induction n with
  | zero =>
    intro a pixels hs _
    refine ⟨pixels, by simp [copySymbol], hs, ?_⟩
    intro r1 c1
    rw [if_neg (by omega)]
  | succ n ih =>
    intro a pixels hs hb
    rw [List.range'_succ]
    obtain ⟨p1, hp1, hs1, hc1⟩ := copyRow_full hl h0 hfit (r := a) (by omega) hs
    obtain ⟨p2, hp2, hs2, hc2⟩ := ih (a + 1) p1 hs1 (by omega)
    refine ⟨p2, by simp [copySymbol, hp1, hp2], hs2, ?_⟩
    intro r1 c1
    rw [hc2, hc1]
    by_cases hcol : curcol ≤ c1 ∧ (c1 : Int) < curcol + l.Width
    · by_cases hra : r1 = a
      · subst hra
        rw [if_neg (by omega), if_pos ⟨rfl, hcol⟩, if_pos (by omega)]
      · by_cases hin : a ≤ r1 ∧ r1 < a + (n + 1)
        · rw [if_pos (by omega), if_pos (by omega)]
        · rw [if_neg (by omega), if_neg (by omega), if_neg (by omega)]
    · rw [if_neg (by omega), if_neg (by omega), if_neg (by omega)]

/-- A symbol that fits is copied whole: the block of rows `0..6` and columns
`curcol .. curcol + Width - 1` receives the glyph, every other cell is kept. -/
theorem copySymbol_full {l : Symbol} (hl : l.indexSafe) {curcol : Int} (h0 : 0 ≤ curcol)
    (hfit : curcol + l.Width < 52) {pixels : Grid} (hs : gridShape pixels) :
    ∃ pixels1, copySymbol l curcol (List.range 7) pixels = some pixels1 ∧
      gridShape pixels1 ∧
      ∀ r1 c1, readCell pixels1 r1 c1 =
        if r1 < 7 ∧ curcol ≤ c1 ∧ (c1 : Int) < curcol + l.Width
        then readCell l.Pixels r1 (c1 - curcol).toNat else readCell pixels r1 c1 := by
  obtain ⟨p1, hp1, hs1, hc1⟩ := copySymbol_spec hl h0 hfit 7 0 pixels hs (by omega)
  rw [List.range_eq_range']
  refine ⟨p1, hp1, hs1, ?_⟩
  intro r1 c1
  rw [hc1]
  by_cases c : (r1 < 7 ∧ curcol ≤ c1 ∧ (c1 : Int) < curcol + l.Width)
  · rw [if_pos c, if_pos (by omega)]
  · rw [if_neg c, if_neg (by omega)]

theorem offsetOf_zero (curcol : Int) (symbols : List Symbol) :
    offsetOf curcol symbols 0 = curcol := by
  simp [offsetOf]

theorem offsetOf_cons_succ (curcol : Int) (l : Symbol) (ls : List Symbol) (k : Nat) :
    offsetOf curcol (l :: ls) (k + 1) = offsetOf (curcol + l.Width) ls k := by
  simp [offsetOf, add_assoc]

theorem renderSymbols_spec :
    ∀ (symbols : List Symbol) (st : Layout), (∀ s ∈ symbols, s.indexSafe) →
      gridShape st.pixels → 0 ≤ st.curcol →
      ∃ st1, renderSymbols symbols st = some st1 ∧ gridShape st1.pixels ∧
        ∃ n, n ≤ symbols.length ∧ st1.placed = st.placed + n ∧
          st1.curcol = offsetOf st.curcol symbols n ∧
          (∀ k, k < n → offsetOf st.curcol symbols (k + 1) < 52) ∧
          (n < symbols.length → 52 ≤ offsetOf st.curcol symbols (n + 1)) ∧
          (∀ k g, k < n → symbols[k]? = some g → ∀ r c : Nat, r < 7 → (c : Int) < g.Width →
            readCell st1.pixels r (offsetOf st.curcol symbols k + c).toNat
              = readCell g.Pixels r c) ∧
          (∀ r c : Nat, (¬ ∃ k g, k < n ∧ symbols[k]? = some g ∧
              offsetOf st.curcol symbols k ≤ c ∧ (c : Int) < offsetOf st.curcol symbols k + g.Width) →
            readCell st1.pixels r c = readCell st.pixels r c) ∧
          (∀ r c : Nat, (c : Int) < st.curcol →
            readCell st1.pixels r c = readCell st.pixels r c) := by
  intro symbols
  induction symbols with
  | nil =>
    intro st _ hs _
    refine ⟨st, by simp [renderSymbols], hs, 0, by simp, by simp, by simp [offsetOf], ?_, ?_, ?_, ?_, ?_⟩
    · intro k hk; omega
    · intro h; simp at h
    · intro k g hk; omega
    · intro r c _; rfl
    · intro r c _; rfl
  | cons l ls ih =>
    intro st hwf hs h0
    have hl : l.indexSafe := hwf l (List.mem_cons_self _ _)
    have hls : ∀ s ∈ ls, s.indexSafe := fun s hm => hwf s (List.mem_cons_of_mem _ hm)
    have hw := indexSafe_width_nonneg hl
    by_cases hfit : st.curcol + l.Width < 52
    · obtain ⟨p1, hp1, hs1, hc1⟩ := copySymbol_full hl h0 hfit hs
      obtain ⟨st1, hst1, hsh1, n, hn, hpl, hcur, hlt, hge, hcell, hunc, hstab⟩ :=
        ih ⟨p1, st.curcol + l.Width, st.placed + 1⟩ hls hs1 (by simp; omega)
      simp only at hst1 hpl hcur hlt hge hcell hunc hstab
      refine ⟨st1, by simp [renderSymbols, hfit, hp1, hst1], hsh1, n + 1, by simp; omega,
        by omega, by rw [offsetOf_cons_succ]; exact hcur, ?_, ?_, ?_, ?_, ?_⟩
      · intro k hk
        rw [offsetOf_cons_succ]
        cases k with
        | zero => rw [offsetOf_zero]; exact hfit
        | succ j => exact hlt j (by omega)
      · intro h
        rw [offsetOf_cons_succ]
        exact hge (by simp at h; omega)
      · intro k g hk hg r c hr hc
        cases k with
        | zero =>
          simp at hg
          subst hg
          rw [offsetOf_zero, hstab r _ (by omega), hc1,
            if_pos ⟨hr, by omega, by omega⟩]
          congr 1
          omega
        | succ j =>
          rw [offsetOf_cons_succ]
          exact hcell j g (by omega) (by simpa using hg) r c hr hc
      · intro r c hno
        have h1 : readCell st1.pixels r c = readCell p1 r c := by
          apply hunc
          rintro ⟨k, g, hk, hg, hlo, hhi⟩
          exact hno ⟨k + 1, g, by omega, by simpa using hg,
            by rw [offsetOf_cons_succ]; exact hlo, by rw [offsetOf_cons_succ]; exact hhi⟩
        have h2 : ¬ (r < 7 ∧ st.curcol ≤ c ∧ (c : Int) < st.curcol + l.Width) := by
          intro h
          exact hno ⟨0, l, by omega, by simp, by rw [offsetOf_zero]; exact h.2.1,
            by rw [offsetOf_zero]; exact h.2.2⟩
        rw [h1, hc1, if_neg h2]
      · intro r c hc
        rw [hstab r c (by omega), hc1, if_neg (by omega)]
    · refine ⟨st, by simp [renderSymbols, hfit], hs, 0, by simp, by simp,
        by simp [offsetOf], ?_, ?_, ?_, ?_, ?_⟩
      · intro k hk; omega
      · intro _
        rw [offsetOf_cons_succ, offsetOf_zero]; omega
      · intro k g hk; omega
      · intro r c _; rfl
      · intro r c _; rfl

theorem readCell_emptyGrid {r c : Nat} (hr : r < 7) (hc : c < 52) :
    readCell emptyGrid r c = some 0 := by
  unfold readCell emptyGrid
  rw [List.getElem?_replicate, if_pos hr]
  show (List.replicate 52 0)[c]? = some 0
  rw [List.getElem?_replicate, if_pos hc]

theorem offsetOf_ge : ∀ (symbols : List Symbol) (curcol : Int) (k : Nat),
    (∀ s ∈ symbols, s.indexSafe) → curcol ≤ offsetOf curcol symbols k := by
  intro symbols
  induction symbols with
  | nil => intro curcol k _; simp [offsetOf]
  | cons l ls ih =>
    intro curcol k hwf
    cases k with
    | zero => rw [offsetOf_zero]
    | succ j =>
      rw [offsetOf_cons_succ]
      have h1 := ih (curcol + l.Width) j (fun s hm => hwf s (List.mem_cons_of_mem _ hm))
      have h2 := indexSafe_width_nonneg (hwf l (List.mem_cons_self _ _))
      omega

theorem offsetOf_mono : ∀ (symbols : List Symbol) (curcol : Int) (j k : Nat),
    (∀ s ∈ symbols, s.indexSafe) → j ≤ k →
      offsetOf curcol symbols j ≤ offsetOf curcol symbols k := by
  intro symbols
  induction symbols with
  | nil => intro curcol j k _ _; simp [offsetOf]
  | cons l ls ih =>
    intro curcol j k hwf hjk
    have hls : ∀ s ∈ ls, s.indexSafe := fun s hm => hwf s (List.mem_cons_of_mem _ hm)
    have hw := indexSafe_width_nonneg (hwf l (List.mem_cons_self _ _))
    cases k with
    | zero =>
      have : j = 0 := by omega
      subst this; exact le_refl _
    | succ k1 =>
      cases j with
      | zero =>
        rw [offsetOf_zero, offsetOf_cons_succ]
        have := offsetOf_ge ls (curcol + l.Width) k1 hls
        omega
      | succ j1 =>
        rw [offsetOf_cons_succ, offsetOf_cons_succ]
        exact ih _ j1 k1 hls (by omega)

theorem offsetOf_length (symbols : List Symbol) (curcol : Int) :
    offsetOf curcol symbols symbols.length = curcol + (symbols.map Symbol.Width).sum := by
  simp [offsetOf]

theorem offsetOf_le_total (symbols : List Symbol) (curcol : Int) (k : Nat)
    (hwf : ∀ s ∈ symbols, s.indexSafe) (hk : k ≤ symbols.length) :
    offsetOf curcol symbols k ≤ curcol + (symbols.map Symbol.Width).sum := by
  rw [← offsetOf_length]
  exact offsetOf_mono symbols curcol k _ hwf hk

theorem fitCount_le : ∀ (symbols : List Symbol) (curcol : Int),
    fitCount curcol symbols ≤ symbols.length := by
  intro symbols
  induction symbols with
  | nil => intro _; simp [fitCount]
  | cons l ls ih =>
    intro curcol
    by_cases h : curcol + l.Width < 52
    · have := ih (curcol + l.Width)
      simp [fitCount, h]; omega
    · simp [fitCount, h]

theorem fitCount_fits : ∀ (symbols : List Symbol) (curcol : Int), curcol < 52 →
    offsetOf curcol symbols (fitCount curcol symbols) < 52 := by
  intro symbols
  induction symbols with
  | nil => intro curcol h; simpa [fitCount, offsetOf] using h
  | cons l ls ih =>
    intro curcol hc
    by_cases h : curcol + l.Width < 52
    · simp only [fitCount, h, if_true]
      rw [offsetOf_cons_succ]
      exact ih _ h
    · simp only [fitCount, h, if_false]
      rw [offsetOf_zero]; exact hc

theorem renderSymbols_take : ∀ (symbols : List Symbol) (st : Layout) (k : Nat),
    fitCount st.curcol symbols ≤ k →
      renderSymbols (symbols.take k) st = renderSymbols symbols st := by
  intro symbols
  induction symbols with
  | nil => intro st k _; simp
  | cons l ls ih =>
    intro st k hk
    by_cases h : st.curcol + l.Width < 52
    · simp only [fitCount, h, if_true] at hk
      obtain ⟨k1, rfl⟩ : ∃ k1, k = k1 + 1 := ⟨k - 1, by omega⟩
      rw [List.take_succ_cons]
      simp only [renderSymbols, h, if_true]
      cases hcp : copySymbol l st.curcol (List.range 7) st.pixels with
      | none => rfl
      | some p1 => exact ih ⟨p1, st.curcol + l.Width, st.placed + 1⟩ k1 (by simpa using by omega)
    · cases k with
      | zero => simp [renderSymbols, h]
      | succ k1 => rw [List.take_succ_cons]; simp [renderSymbols, h]

theorem renderSymbols_append : ∀ (pre rest : List Symbol) (st0 st : Layout),
    renderSymbols pre st0 = some st → st.placed = st0.placed + pre.length →
      renderSymbols (pre ++ rest) st0 = renderSymbols rest st := by
  intro pre
  induction pre with
  | nil =>
    intro rest st0 st h _
    simp [renderSymbols] at h
    subst h; rfl
  | cons l ls ih =>
    intro rest st0 st h hp
    by_cases hfit : st0.curcol + l.Width < 52
    · simp only [renderSymbols, hfit, if_true, List.cons_append] at h ⊢
      cases hcp : copySymbol l st0.curcol (List.range 7) st0.pixels with
      | none => rw [hcp] at h; simp at h
      | some p1 =>
        rw [hcp] at h
        simp only at h ⊢
        exact ih rest _ st h (by simp at hp ⊢; omega)
    · simp only [renderSymbols, hfit, if_false] at h
      simp at h
      subst h
      simp at hp

theorem offsetOf_ge_of_nonneg : ∀ (symbols : List Symbol) (curcol : Int) (k : Nat),
    (∀ s ∈ symbols, 0 ≤ s.Width) → curcol ≤ offsetOf curcol symbols k := by
  intro symbols
  induction symbols with
  | nil => intro curcol k _; simp [offsetOf]
  | cons l ls ih =>
    intro curcol k hw
    cases k with
    | zero => rw [offsetOf_zero]
    | succ j =>
      rw [offsetOf_cons_succ]
      have h1 := ih (curcol + l.Width) j (fun s hm => hw s (List.mem_cons_of_mem _ hm))
      have h2 := hw l (List.mem_cons_self _ _)
      omega

theorem rowWidth_nonneg {l : Symbol} (h : l.rowWidth) : 0 ≤ l.Width := by
  obtain ⟨row, _, hlen⟩ := h
  omega

theorem allWidthNonneg {symbols : List Symbol} (h : ∀ s ∈ symbols, s.rowWidth) :
    ∀ s ∈ symbols, 0 ≤ s.Width :=
  fun s hs => rowWidth_nonneg (h s hs)

theorem wellFormed_rowWidth {l : Symbol} (h : l.wellFormed) : l.rowWidth := by
  have hlt : 0 < l.Pixels.length := by rw [h.1]; decide
  exact ⟨l.Pixels[0], List.getElem_mem hlt, h.2 _ (List.getElem_mem hlt)⟩

theorem renderSymbols_placed : ∀ (symbols : List Symbol) (st st1 : Layout),
    renderSymbols symbols st = some st1 →
      st1.placed = st.placed + fitCount st.curcol symbols := by
  intro symbols
  induction symbols with
  | nil =>
    intro st st1 h
    simp [renderSymbols] at h
    subst h; simp [fitCount]
  | cons l ls ih =>
    intro st st1 h
    unfold renderSymbols at h
    by_cases hfit : st.curcol + l.Width < 52
    · rw [if_pos hfit] at h
      cases hcp : copySymbol l st.curcol (List.range 7) st.pixels with
      | none => rw [hcp] at h; simp at h
      | some p1 =>
        rw [hcp] at h
        simp only at h
        have := ih _ st1 h
        simp only at this
        simp only [fitCount, hfit, if_true]
        omega
    · rw [if_neg hfit] at h
      cases h
      simp [fitCount, hfit]

theorem fitCount_maximal : ∀ (symbols : List Symbol) (curcol : Int) (j : Nat),
    (∀ s ∈ symbols, 0 ≤ s.Width) → j ≤ symbols.length →
      offsetOf curcol symbols j < 52 → j ≤ fitCount curcol symbols := by
  intro symbols
  induction symbols with
  | nil =>
    intro curcol j _ hj _
    simp at hj
    subst hj
    exact Nat.zero_le _
  | cons l ls ih =>
    intro curcol j hw hj hfit
    cases j with
    | zero => exact Nat.zero_le _
    | succ j1 =>
      rw [offsetOf_cons_succ] at hfit
      have hls : ∀ s ∈ ls, 0 ≤ s.Width := fun s hs => hw s (List.mem_cons_of_mem _ hs)
      have hge := offsetOf_ge_of_nonneg ls (curcol + l.Width) j1 hls
      have hguard : curcol + l.Width < 52 := by omega
      have := ih (curcol + l.Width) j1 hls (by simpa using hj) hfit
      simp only [fitCount, hguard, if_true]
      omega

/-! ## The compositor: placement, truncation, capacity -/

/-- C1. For well-formed glyphs (7 rows of length `Width()`), every placed glyph `k`
is copied cell by cell at offset `1 + (widths before it)`, the placed glyphs are
exactly those for which that offset plus the width stays below 52, and every grid
cell covered by no placed glyph is 0. -/
theorem compositor_placement (symbols : List Symbol)
    (hwf : ∀ s ∈ symbols, s.wellFormed) :
    ∃ st, composite symbols = some st ∧ st.placed ≤ symbols.length ∧
      (∀ k, k < symbols.length → (k < st.placed ↔ offsetOf 1 symbols (k + 1) < 52)) ∧
      (∀ k g, k < st.placed → symbols[k]? = some g →
        ∀ r c : Nat, r < 7 → (c : Int) < g.Width →
          ∃ v, readCell g.Pixels r c = some v ∧
            readCell st.pixels r (offsetOf 1 symbols k + c).toNat = some v) ∧
      (∀ r c : Nat, r < 7 → c < 52 →
        (¬ ∃ k g, k < st.placed ∧ symbols[k]? = some g ∧
          offsetOf 1 symbols k ≤ c ∧ (c : Int) < offsetOf 1 symbols k + g.Width) →
        readCell st.pixels r c = some 0) := by
  obtain ⟨st, hst, _, n, hn, hpl, _, hlt, hge, hcell, hunc, _⟩ :=
    renderSymbols_spec symbols ⟨emptyGrid, 1, 0⟩ (allIndexSafe hwf) gridShape_emptyGrid (by decide)
  simp only at hpl hlt hge hcell hunc
  have hn' : st.placed = n := by omega
  subst hn'
  refine ⟨st, hst, hn, ?_, ?_, ?_⟩
  · intro k hk
    constructor
    · exact hlt k
    · intro h
      by_contra hnot
      have h1 := hge (by omega)
      have h2 := offsetOf_mono symbols 1 (st.placed + 1) (k + 1) (allIndexSafe hwf) (by omega)
      omega
  · intro k g hk hg r c hr hc
    have hmem : g ∈ symbols := List.mem_iff_getElem?.2 ⟨k, hg⟩
    obtain ⟨v, hv⟩ := wellFormed_read (hwf g hmem) hr hc
    exact ⟨v, hv, by rw [hcell k g hk hg r c hr hc, hv]⟩
  · intro r c hr hc hno
    rw [hunc r c hno]
    exact readCell_emptyGrid hr hc

/-- The placement theorem at the scenario "HI" (widths 4 and 3). -/
theorem compositor_placement_witness :
    (∀ s ∈ [glyphH, glyphI], s.wellFormed) ∧
    ∃ st, composite [glyphH, glyphI] = some st ∧ st.placed ≤ [glyphH, glyphI].length ∧
      (∀ k, k < [glyphH, glyphI].length →
        (k < st.placed ↔ offsetOf 1 [glyphH, glyphI] (k + 1) < 52)) ∧
      (∀ k g, k < st.placed → [glyphH, glyphI][k]? = some g →
        ∀ r c : Nat, r < 7 → (c : Int) < g.Width →
          ∃ v, readCell g.Pixels r c = some v ∧
            readCell st.pixels r (offsetOf 1 [glyphH, glyphI] k + c).toNat = some v) ∧
      (∀ r c : Nat, r < 7 → c < 52 →
        (¬ ∃ k g, k < st.placed ∧ [glyphH, glyphI][k]? = some g ∧
          offsetOf 1 [glyphH, glyphI] k ≤ c ∧
          (c : Int) < offsetOf 1 [glyphH, glyphI] k + g.Width) →
        readCell st.pixels r c = some 0) :=
  ⟨by decide, compositor_placement [glyphH, glyphI] (by decide)⟩

/-- The scenario "HI": "H" occupies columns 1-4, "I" columns 5-7, the columns
0 and 8-51 stay at 0, and the final offset is 8. -/
theorem composite_HI :
    composite [glyphH, glyphI] = some
      ⟨[0 :: 1 :: 0 :: 0 :: 1 :: 3 :: 3 :: 3 :: List.replicate 44 0,
        0 :: 1 :: 0 :: 0 :: 1 :: 0 :: 1 :: 0 :: List.replicate 44 0,
        0 :: 1 :: 0 :: 0 :: 1 :: 0 :: 1 :: 0 :: List.replicate 44 0,
        0 :: 1 :: 1 :: 1 :: 1 :: 0 :: 1 :: 0 :: List.replicate 44 0,
        0 :: 1 :: 0 :: 0 :: 1 :: 0 :: 1 :: 0 :: List.replicate 44 0,
        0 :: 1 :: 0 :: 0 :: 1 :: 0 :: 1 :: 0 :: List.replicate 44 0,
        0 :: 1 :: 0 :: 0 :: 1 :: 3 :: 3 :: 3 :: List.replicate 44 0], 8, 2⟩ := by
  decide

/-- C2. For glyphs whose `Width()` is the length of one of their rows: the
composited result equals the result for the longest fitting beginning of the sequence
(the largest `k` with `1 + widths of the first k < 52`), and the glyphs placed are
exactly those `k`; the first glyph whose offset plus width reaches 52 is dropped whole
together with everything after it, also a later glyph that would fit; for well-formed
glyphs the compositor returns. -/
theorem compositor_truncation (symbols : List Symbol)
    (hrow : ∀ s ∈ symbols, s.rowWidth) :
    (∃ k, k ≤ symbols.length ∧ offsetOf 1 symbols k < 52 ∧
      (∀ j, j ≤ symbols.length → offsetOf 1 symbols j < 52 → j ≤ k) ∧
      composite (symbols.take k) = composite symbols ∧
      (∀ st, composite symbols = some st → st.placed = k)) ∧
    (∀ pre g post st, symbols = pre ++ g :: post → composite pre = some st →
      st.placed = pre.length → 52 ≤ st.curcol + g.Width → composite symbols = some st) ∧
    ((∀ s ∈ symbols, s.wellFormed) → ∃ st, composite symbols = some st) := by
  have hw := allWidthNonneg hrow
  refine ⟨?_, ?_, ?_⟩
  · refine ⟨fitCount 1 symbols, fitCount_le symbols 1,
      fitCount_fits symbols 1 (by decide), ?_, ?_, ?_⟩
    · intro j hj hfit
      exact fitCount_maximal symbols 1 j hw hj hfit
    · exact renderSymbols_take symbols ⟨emptyGrid, 1, 0⟩ _ (le_refl _)
    · intro st hst
      have := renderSymbols_placed symbols ⟨emptyGrid, 1, 0⟩ st hst
      simpa using this
  · intro pre g post st hsym hpre hpl hov
    subst hsym
    unfold composite at hpre ⊢
    rw [renderSymbols_append pre (g :: post) _ st hpre (by simpa using hpl)]
    have : ¬ st.curcol + g.Width < 52 := by omega
    simp [renderSymbols, this]
  · intro hwf
    obtain ⟨st, hst, _⟩ :=
      renderSymbols_spec symbols ⟨emptyGrid, 1, 0⟩ (allIndexSafe hwf) gridShape_emptyGrid (by decide)
    exact ⟨st, hst⟩

/-- A glyph of width 3 that would begin at column 50 (after a glyph of width 49) is
dropped whole, a later glyph of width 1 is not placed either, and columns 50 and 51
stay at 0. -/
theorem compositor_truncation_witness :
    (∀ s ∈ [bar 49 1, glyphI, bar 1 2], s.rowWidth) ∧
    composite [bar 49 1, glyphI, bar 1 2]
        = some ⟨List.replicate 7 (0 :: (List.replicate 49 1 ++ [0, 0])), 50, 1⟩ ∧
      ∀ r, r < 7 →
        readCell (List.replicate 7 (0 :: (List.replicate 49 1 ++ [0, 0]))) r 50 = some 0 ∧
        readCell (List.replicate 7 (0 :: (List.replicate 49 1 ++ [0, 0]))) r 51 = some 0 :=
  ⟨by decide,
    (compositor_truncation [bar 49 1, glyphI, bar 1 2] (by decide)).2.1 [bar 49 1] glyphI
      [bar 1 2] ⟨List.replicate 7 (0 :: (List.replicate 49 1 ++ [0, 0])), 50, 1⟩ rfl
      (by decide) (by decide) (by decide),
    by decide⟩

/-- C3 as stated fails at width sum 51: a single well-formed glyph of width 51 is
not placed (`1 + 51 < 52` is false), the final offset is 1 and not `1 + 51`. -/
theorem no_truncation_51_counterexample :
    (∀ s ∈ [bar 51 1], s.wellFormed) ∧ ([bar 51 1].map Symbol.Width).sum ≤ 51 ∧
      composite [bar 51 1] = some ⟨emptyGrid, 1, 0⟩ ∧
      (1 : Int) ≠ 1 + ([bar 51 1].map Symbol.Width).sum ∧ (0 : Nat) ≠ [bar 51 1].length := by
  decide

/-- C3 (amended). For well-formed glyphs whose widths sum to at most 50, every glyph
is placed whole (the overflow branch is never taken) and the final offset is
`1 + (sum of all widths)`. -/
theorem no_truncation_up_to_50 (symbols : List Symbol)
    (hwf : ∀ s ∈ symbols, s.wellFormed)
    (hsum : (symbols.map Symbol.Width).sum ≤ 50) :
    ∃ st, composite symbols = some st ∧ st.placed = symbols.length ∧
      st.curcol = 1 + (symbols.map Symbol.Width).sum ∧
      (∀ k g, symbols[k]? = some g → ∀ r c : Nat, r < 7 → (c : Int) < g.Width →
        ∃ v, readCell g.Pixels r c = some v ∧
          readCell st.pixels r (offsetOf 1 symbols k + c).toNat = some v) := by
  obtain ⟨st, hst, _, n, hn, hpl, hcur, _, hge, hcell, _, _⟩ :=
    renderSymbols_spec symbols ⟨emptyGrid, 1, 0⟩ (allIndexSafe hwf) gridShape_emptyGrid (by decide)
  simp only at hpl hcur hge hcell
  have hn' : n = symbols.length := by
    by_contra hne
    have h1 := hge (by omega)
    have h2 := offsetOf_le_total symbols 1 (n + 1) (allIndexSafe hwf) (by omega)
    omega
  subst hn'
  refine ⟨st, hst, by omega, by rw [hcur, offsetOf_length], ?_⟩
  intro k g hg r c hr hc
  have hk : k < symbols.length := by
    rcases List.getElem?_eq_some.1 hg with ⟨h, _⟩
    exact h
  have hmem : g ∈ symbols := List.mem_iff_getElem?.2 ⟨k, hg⟩
  obtain ⟨v, hv⟩ := wellFormed_read (hwf g hmem) hr hc
  exact ⟨v, hv, by rw [hcell k g hk hg r c hr hc, hv]⟩

/-- Widths 49 and 1 sum to 50: both glyphs are placed and the final offset is 51. -/
theorem no_truncation_up_to_50_witness :
    (∀ s ∈ [bar 49 1, bar 1 2], s.wellFormed) ∧
    ([bar 49 1, bar 1 2].map Symbol.Width).sum ≤ 50 ∧
    ∃ st, composite [bar 49 1, bar 1 2] = some st ∧
      st.placed = [bar 49 1, bar 1 2].length ∧
      st.curcol = 1 + ([bar 49 1, bar 1 2].map Symbol.Width).sum ∧
      (∀ k g, [bar 49 1, bar 1 2][k]? = some g → ∀ r c : Nat, r < 7 → (c : Int) < g.Width →
        ∃ v, readCell g.Pixels r c = some v ∧
          readCell st.pixels r (offsetOf 1 [bar 49 1, bar 1 2] k + c).toNat = some v) :=
  ⟨by decide, by decide, no_truncation_up_to_50 [bar 49 1, bar 1 2] (by decide) (by decide)⟩

/-! ## Lemmas on the schedule walk -/

theorem forRange_invariant {σ : Type} (body : Nat → σ → Option σ) (Inv : Nat → σ → Prop) :
    ∀ (n a : Nat) (s : σ), Inv a s →
      (∀ i s1, a ≤ i → i < a + n → Inv i s1 → ∃ s2, body i s1 = some s2 ∧ Inv (i + 1) s2) →
      ∃ s1, forRange body (List.range' a n) s = some s1 ∧ Inv (a + n) s1 := by
  intro n
  induction n with
  | zero =>
    intro a s h _
    exact ⟨s, by simp [forRange], by simpa using h⟩
  | succ n ih =>
    intro a s h hstep
    obtain ⟨s2, hs2, hi2⟩ := hstep a s (le_refl _) (by omega) h
    obtain ⟨s3, hs3, hi3⟩ := ih (a + 1) s2 hi2
      (fun i s1 h1 h2 h3 => hstep i s1 (by omega) (by omega) h3)
    refine ⟨s3, by rw [List.range'_succ]; simp [forRange, hs2, hs3], ?_⟩
    have : a + (n + 1) = a + 1 + n := by omega
    rw [this]; exact hi3

theorem writeCommits_eq (date : Time) : ∀ (n : Nat) (buffer : List Piece),
    writeCommits date n buffer = buffer ++ List.replicate n (Piece.commit date) := by
  intro n
  induction n with
  | zero => intro buffer; simp [writeCommits]
  | succ n ih =>
    intro buffer
    rw [writeCommits, ih, List.replicate_succ, List.append_assoc]
    rfl

theorem wrapInt_zero : wrapInt 0 = 0 := by decide

theorem scheduleCell_eq {pixels : Grid} (multi : Int) {c r : Nat} (s : Sched) {p : Nat}
    (hp : readCell pixels r c = some p) :
    scheduleCell pixels multi c r s = some
      ⟨s.startdate.Add (Hour * 24),
        s.buffer ++ List.replicate (cellCount pixels multi c r) (Piece.commit s.startdate),
        s.visited ++ [(c, r, s.startdate)]⟩ := by
  unfold scheduleCell cellCount
  rw [hp]
  by_cases h0 : p = 0
  · subst h0
    simp [wrapInt_zero]
  · simp [h0, writeCommits_eq]

theorem Time.add_add (t : Time) (a b : Int) : (t.Add a).Add b = t.Add (a + b) := by
  simp [Time.Add, add_assoc]

theorem rowsCommits_succ (pixels : Grid) (multi : Int) (d0 : Time) (c n : Nat) :
    rowsCommits pixels multi d0 c (n + 1)
      = rowsCommits pixels multi d0 c n ++ cellCommits pixels multi d0 c n := by
  simp [rowsCommits, List.range_succ]

theorem scheduleCommits_succ (pixels : Grid) (multi : Int) (d0 : Time) (n : Nat) :
    scheduleCommits pixels multi d0 (n + 1)
      = scheduleCommits pixels multi d0 n ++ rowsCommits pixels multi d0 n 7 := by
  simp [scheduleCommits, List.range_succ]

theorem visitedCells_succ (d0 : Time) (n : Nat) :
    visitedCells d0 (n + 1)
      = visitedCells d0 n ++ [(n / 7, n % 7, d0.Add ((n : Int) * (Hour * 24)))] := by
  simp [visitedCells, List.range_succ]

/-- The inner schedule loop for column `c`, started in the state reached after `c`
full columns. -/
theorem scheduleColumn_spec {pixels : Grid} (hs : gridShape pixels) (multi : Int)
    (d0 : Time) (b0 : List Piece) (v0 : List (Nat × Nat × Time)) {c : Nat} (hc : c < 52) :
    forRange (scheduleCell pixels multi c) (List.range 7)
        ⟨d0.Add (((7 * c : Nat) : Int) * (Hour * 24)),
          b0 ++ scheduleCommits pixels multi d0 c, v0 ++ visitedCells d0 (7 * c)⟩
      = some ⟨d0.Add (((7 * (c + 1) : Nat) : Int) * (Hour * 24)),
          b0 ++ scheduleCommits pixels multi d0 (c + 1), v0 ++ visitedCells d0 (7 * (c + 1))⟩ := by
  obtain ⟨s1, hs1, hinv⟩ := forRange_invariant (scheduleCell pixels multi c)
    (fun r s => s = ⟨d0.Add (((7 * c + r : Nat) : Int) * (Hour * 24)),
      b0 ++ scheduleCommits pixels multi d0 c ++ rowsCommits pixels multi d0 c r,
      v0 ++ visitedCells d0 (7 * c + r)⟩) 7 0
    ⟨d0.Add (((7 * c : Nat) : Int) * (Hour * 24)),
      b0 ++ scheduleCommits pixels multi d0 c, v0 ++ visitedCells d0 (7 * c)⟩
    (by simp [rowsCommits])
    (by
      intro r s _ hr hinv
      obtain ⟨p, hp⟩ := readCell_isSome hs (r := r) (c := c) (by omega) hc
      refine ⟨_, scheduleCell_eq multi s hp, ?_⟩
      subst hinv
      simp only [Sched.mk.injEq]
      refine ⟨?_, ?_, ?_⟩
      · rw [Time.add_add]
        apply congrArg
        push_cast; ring
      · rw [rowsCommits_succ, cellCommits, cellDate]
        simp [List.append_assoc]
      · have e : 7 * c + (r + 1) = (7 * c + r) + 1 := by omega
        rw [e, visitedCells_succ]
        have h1 : (7 * c + r) / 7 = c := by omega
        have h2 : (7 * c + r) % 7 = r := by omega
        rw [h1, h2]
        simp [List.append_assoc])
  rw [List.range_eq_range', hs1, hinv, scheduleCommits_succ]
  simp [List.append_assoc, Nat.mul_add]

/-- The schedule walk on a buffer of 7 rows of 52 cells: it returns, the cursor has
advanced by 364 days, the commit statements of the cells are appended in column-major
order and every cell has been visited once. -/
theorem schedule_spec {pixels : Grid} (hs : gridShape pixels) (multi : Int) (s : Sched) :
    schedule pixels multi s = some
      ⟨s.startdate.Add (364 * (Hour * 24)),
        s.buffer ++ scheduleCommits pixels multi s.startdate 52,
        s.visited ++ visitedCells s.startdate 364⟩ := by
  obtain ⟨s1, hs1, hinv⟩ := forRange_invariant
    (fun c s1 => forRange (scheduleCell pixels multi c) (List.range 7) s1)
    (fun c s1 => s1 = ⟨s.startdate.Add (((7 * c : Nat) : Int) * (Hour * 24)),
      s.buffer ++ scheduleCommits pixels multi s.startdate c,
      s.visited ++ visitedCells s.startdate (7 * c)⟩) 52 0 s
    (by simp [scheduleCommits, visitedCells, Time.Add])
    (by
      intro c s1 _ hc hinv
      subst hinv
      exact ⟨_, scheduleColumn_spec hs multi s.startdate s.buffer s.visited (by omega), rfl⟩)
  unfold schedule
  rw [List.range_eq_range' 52, hs1, hinv]
  simp

/-! ## Lemmas on the preview -/

theorem printCell_eq (PixelRune : Nat → Option Char) {pixels : Grid} (hs : gridShape pixels)
    {r c : Nat} (hr : r < 7) (hc : c < 52) (pbuf : String) :
    printCell PixelRune pixels r c pbuf = some (pbuf.push (symbolAt PixelRune pixels r c)) := by
  obtain ⟨row, hrow, hlen⟩ := gridShape_row hs hr
  have hlt : c < row.length := by omega
  have hrl : r < row.length := by omega
  unfold printCell symbolAt symbolOf readCell
  rw [hrow]
  simp only [hrl, if_true, List.getElem?_eq_getElem hlt]
  cases PixelRune row[c] <;> rfl

theorem String.push_mk_append (a : String) (l : List Char) (x : Char) :
    (a ++ String.mk l).push x = a ++ String.mk (l ++ [x]) := by
  apply String.ext
  simp [String.data_push, String.data_append]

theorem String.join_snoc (l : List String) (x : String) :
    String.join (l ++ [x]) = String.join l ++ x := by
  simp [String.join, List.foldl_append]

theorem printRow_eq (PixelRune : Nat → Option Char) {pixels : Grid} (hs : gridShape pixels)
    {r : Nat} (hr : r < 7) (pbuf : String) :
    printRow PixelRune pixels r pbuf = some (pbuf ++ previewLine PixelRune pixels r) := by
  obtain ⟨s1, hs1, hinv⟩ := forRange_invariant (printCell PixelRune pixels r)
    (fun c s => s = (pbuf ++ "#    ")
      ++ String.mk ((List.range c).map (symbolAt PixelRune pixels r))) 52 0 (pbuf ++ "#    ")
    (by apply String.ext; simp [String.data_append])
    (by
      intro c s _ hc hinv
      refine ⟨_, printCell_eq PixelRune hs hr (by omega) s, ?_⟩
      subst hinv
      rw [String.push_mk_append, List.range_succ, List.map_append]
      rfl)
  unfold printRow
  rw [List.range_eq_range', hs1, hinv]
  unfold previewLine
  simp only [Nat.zero_add]
  congr 1
  apply String.ext
  simp [String.data_push, String.data_append]

theorem printHistogram_eq (PixelRune : Nat → Option Char) {pixels : Grid}
    (hs : gridShape pixels) :
    printHistogram PixelRune pixels = some (previewText PixelRune pixels) := by
  obtain ⟨s1, hs1, hinv⟩ := forRange_invariant (printRow PixelRune pixels)
    (fun r s => s = "\n# ----- Histogram Preview -----\n\n"
      ++ String.join ((List.range r).map (previewLine PixelRune pixels))) 7 0
    "\n# ----- Histogram Preview -----\n\n"
    (by apply String.ext; simp [String.data_append, String.join])
    (by
      intro r s _ hr hinv
      refine ⟨_, printRow_eq PixelRune hs (by omega) s, ?_⟩
      subst hinv
      rw [List.range_succ, List.map_append, List.map_singleton, String.join_snoc]
      apply String.ext
      simp [String.data_append])
  unfold printHistogram
  rw [List.range_eq_range', hs1, hinv]
  unfold previewText
  simp only [Nat.zero_add]
  congr 1

theorem previewLine_data (PixelRune : Nat → Option Char) (pixels : Grid) (r : Nat) :
    (previewLine PixelRune pixels r).data
      = "#    ".data ++ ((List.range 52).map (symbolAt PixelRune pixels r) ++ "\n".data) := by
  simp [previewLine, String.data_append]

theorem previewLine_length (PixelRune : Nat → Option Char) (pixels : Grid) (r : Nat) :
    (previewLine PixelRune pixels r).data.length = 58 := by
  rw [previewLine_data]
  simp

theorem previewLine_symbol (PixelRune : Nat → Option Char) (pixels : Grid) (r : Nat)
    {c : Nat} (hc : c < 52) :
    (previewLine PixelRune pixels r).data[5 + c]? = some (symbolAt PixelRune pixels r c) := by
  rw [previewLine_data]
  have h5 : "#    ".data.length = 5 := by decide
  rw [List.getElem?_append_right (by omega), h5, Nat.add_sub_cancel_left,
    List.getElem?_append_left (by simpa using hc)]
  simp [List.getElem?_map, List.getElem?_range hc]

theorem previewLines_length (PixelRune : Nat → Option Char) (pixels : Grid) (n : Nat) :
    (String.join ((List.range n).map (previewLine PixelRune pixels))).data.length = 58 * n := by
  induction n with
  | zero => simp [String.join]
  | succ n ih =>
    rw [List.range_succ, List.map_append, List.map_singleton, String.join_snoc,
      String.data_append, List.length_append, ih, previewLine_length]
    omega

theorem previewLines_symbol (PixelRune : Nat → Option Char) (pixels : Grid) (n : Nat) :
    ∀ r c, r < n → c < 52 →
      (String.join ((List.range n).map (previewLine PixelRune pixels))).data[58 * r + 5 + c]?
        = some (symbolAt PixelRune pixels r c) := by
  induction n with
  | zero => intro r c hr; omega
  | succ n ih =>
    intro r c hr hc
    rw [List.range_succ, List.map_append, List.map_singleton, String.join_snoc,
      String.data_append]
    have hlen := previewLines_length PixelRune pixels n
    by_cases hrn : r < n
    · rw [List.getElem?_append_left (by omega)]
      exact ih r c hrn hc
    · have e : r = n := by omega
      subst e
      rw [List.getElem?_append_right (by omega), hlen]
      have : 58 * r + 5 + c - 58 * r = 5 + c := by omega
      rw [this]
      exact previewLine_symbol PixelRune pixels r hc

theorem previewText_length (PixelRune : Nat → Option Char) (pixels : Grid) :
    (previewText PixelRune pixels).length = 441 := by
  have h := previewLines_length PixelRune pixels 7
  have hb : "\n# ----- Histogram Preview -----\n\n".data.length = 34 := by decide
  show (previewText PixelRune pixels).data.length = 441
  unfold previewText
  rw [String.data_append, String.data_append, List.length_append, List.length_append, h, hb]
  rfl

theorem previewText_symbol (PixelRune : Nat → Option Char) (pixels : Grid) {r c : Nat}
    (hr : r < 7) (hc : c < 52) :
    (previewText PixelRune pixels).data[39 + 58 * r + c]?
      = some (symbolAt PixelRune pixels r c) := by
  have h := previewLines_length PixelRune pixels 7
  have hb : "\n# ----- Histogram Preview -----\n\n".data.length = 34 := by decide
  unfold previewText
  rw [String.data_append, String.data_append,
    List.getElem?_append_left (by rw [List.length_append, h, hb]; omega),
    List.getElem?_append_right (by omega), hb]
  have : 39 + 58 * r + c - 34 = 58 * r + 5 + c := by omega
  rw [this]
  exact previewLines_symbol PixelRune pixels 7 r c hr hc

/-! ## The output buffer -/

theorem commitDates_append (a b : List Piece) :
    commitDates (a ++ b) = commitDates a ++ commitDates b := by
  induction a with
  | nil => rfl
  | cons x xs ih => cases x <;> simp [commitDates, ih]

theorem commitDates_replicate (n : Nat) (d : Time) :
    commitDates (List.replicate n (Piece.commit d)) = List.replicate n d := by
  induction n with
  | zero => rfl
  | succ n ih => simp [List.replicate_succ, commitDates, ih]

theorem buildScriptBuffer_spec (PixelRune : Nat → Option Char) (dryrun usessh : Bool)
    (user repo text : String) (multi : Int) (startdate : Time) (symbols : List Symbol)
    (hwf : ∀ s ∈ symbols, s.indexSafe) :
    ∃ st, composite symbols = some st ∧ gridShape st.pixels ∧
      printHistogram PixelRune st.pixels = some (previewText PixelRune st.pixels) ∧
      schedule st.pixels multi ⟨startdate.Add ((Hour * 24) * 7),
          [Piece.header repo, Piece.preview (previewText PixelRune st.pixels)], []⟩
        = some ⟨(startdate.Add ((Hour * 24) * 7)).Add (364 * (Hour * 24)),
            [Piece.header repo, Piece.preview (previewText PixelRune st.pixels)]
              ++ scheduleCommits st.pixels multi (startdate.Add ((Hour * 24) * 7)) 52,
            visitedCells (startdate.Add ((Hour * 24) * 7)) 364⟩ ∧
      buildScriptBuffer PixelRune dryrun usessh user repo text multi startdate symbols
        = some (if dryrun then [Piece.preview (previewText PixelRune st.pixels)]
            else Piece.header repo :: Piece.preview (previewText PixelRune st.pixels) ::
              (scheduleCommits st.pixels multi (startdate.Add ((Hour * 24) * 7)) 52
                ++ [Piece.footer usessh user repo])) := by
  obtain ⟨st, hst, hsh, _⟩ :=
    renderSymbols_spec symbols ⟨emptyGrid, 1, 0⟩ hwf gridShape_emptyGrid (by decide)
  have hsched := schedule_spec hsh multi ⟨startdate.Add ((Hour * 24) * 7),
    [Piece.header repo, Piece.preview (previewText PixelRune st.pixels)], []⟩
  simp only [List.nil_append] at hsched
  refine ⟨st, hst, hsh, printHistogram_eq PixelRune hsh, hsched, ?_⟩
  have hst' : composite symbols = some st := hst
  unfold buildScriptBuffer
  rw [printHistogram_eq PixelRune gridShape_emptyGrid, hst']
  simp only [printHistogram_eq PixelRune hsh, hsched]
  cases dryrun <;> simp

theorem wrapInt_of_nonneg_lt {x : Int} (h0 : 0 ≤ x) (h1 : x < 9223372036854775808) :
    wrapInt x = x := by
  unfold wrapInt; omega

theorem cellDate_eq_iff (d0 : Time) {c1 r1 c2 r2 : Nat} (h1 : r1 < 7) (h2 : r2 < 7) :
    cellDate d0 c1 r1 = cellDate d0 c2 r2 ↔ c1 = c2 ∧ r1 = r2 := by
  unfold cellDate Time.Add Hour
  rw [Time.mk.injEq]
  constructor
  · intro h
    push_cast at h
    omega
  · rintro ⟨rfl, rfl⟩; rfl

theorem count_rowsCommits (pixels : Grid) (multi : Int) (d0 : Time) {c r : Nat} (hr : r < 7)
    (c1 : Nat) : ∀ n, n ≤ 7 →
      (rowsCommits pixels multi d0 c1 n).count (Piece.commit (cellDate d0 c r))
        = if c1 = c ∧ r < n then cellCount pixels multi c r else 0 := by
  intro n
  induction n with
  | zero => intro _; simp [rowsCommits]
  | succ n ih =>
    intro hn
    rw [rowsCommits_succ, List.count_append, ih (by omega), cellCommits, List.count_replicate]
    by_cases hc : c1 = c
    · subst hc
      by_cases hrn : n = r
      · subst hrn
        simp
      · have : ¬ (cellDate d0 c1 n = cellDate d0 c1 r) := by
          rw [cellDate_eq_iff d0 (by omega) hr]; omega
        by_cases hlt : r < n
        · simp [this, hlt, Nat.lt_succ_of_lt hlt]
        · have : ¬ r < n + 1 := by omega
          simp [*]
    · have : ¬ (cellDate d0 c1 n = cellDate d0 c r) := by
        rw [cellDate_eq_iff d0 (by omega) hr]; omega
      simp [hc, this]

theorem count_scheduleCommits (pixels : Grid) (multi : Int) (d0 : Time) {c r : Nat}
    (hr : r < 7) : ∀ n,
      (scheduleCommits pixels multi d0 n).count (Piece.commit (cellDate d0 c r))
        = if c < n then cellCount pixels multi c r else 0 := by
  intro n
  induction n with
  | zero => simp [scheduleCommits]
  | succ n ih =>
    rw [scheduleCommits_succ, List.count_append, ih,
      count_rowsCommits pixels multi d0 hr n 7 (le_refl _)]
    by_cases hlt : c < n
    · have : n ≠ c := by omega
      simp [hlt, this, Nat.lt_succ_of_lt hlt]
    · by_cases he : n = c
      · subst he; simp [hr]
      · have : ¬ c < n + 1 := by omega
        simp [hlt, he, this]

theorem cellDate_nsec (d0 : Time) (c r : Nat) :
    (cellDate d0 c r).nsec = d0.nsec + (7 * (c : Int) + r) * 86400000000000 := by
  unfold cellDate Time.Add Hour
  push_cast; ring

theorem pairwise_replicate_le (n : Nat) (d : Time) :
    (List.replicate n d).Pairwise (fun a b => a.nsec ≤ b.nsec) := by
  induction n with
  | zero => simp
  | succ n ih =>
    rw [List.replicate_succ, List.pairwise_cons]
    refine ⟨?_, ih⟩
    intro b hb
    rw [(List.mem_replicate.1 hb).2]

theorem mem_commitDates_rowsCommits (pixels : Grid) (multi : Int) (d0 : Time) (c : Nat) :
    ∀ n d, d ∈ commitDates (rowsCommits pixels multi d0 c n) →
      ∃ r, r < n ∧ d = cellDate d0 c r := by
  intro n
  induction n with
  | zero => intro d h; simp [rowsCommits, commitDates] at h
  | succ n ih =>
    intro d h
    rw [rowsCommits_succ, commitDates_append, List.mem_append, cellCommits,
      commitDates_replicate] at h
    rcases h with h | h
    · obtain ⟨r, hr, hd⟩ := ih d h
      exact ⟨r, by omega, hd⟩
    · exact ⟨n, by omega, (List.mem_replicate.1 h).2⟩

theorem pairwise_commitDates_rowsCommits (pixels : Grid) (multi : Int) (d0 : Time) (c : Nat) :
    ∀ n, (commitDates (rowsCommits pixels multi d0 c n)).Pairwise
      (fun a b => a.nsec ≤ b.nsec) := by
  intro n
  induction n with
  | zero => simp [rowsCommits, commitDates]
  | succ n ih =>
    rw [rowsCommits_succ, commitDates_append, cellCommits, commitDates_replicate,
      List.pairwise_append]
    refine ⟨ih, pairwise_replicate_le _ _, ?_⟩
    intro a ha b hb
    obtain ⟨r, hr, rfl⟩ := mem_commitDates_rowsCommits pixels multi d0 c n a ha
    rw [(List.mem_replicate.1 hb).2, cellDate_nsec, cellDate_nsec]
    omega

theorem mem_commitDates_scheduleCommits (pixels : Grid) (multi : Int) (d0 : Time) :
    ∀ n d, d ∈ commitDates (scheduleCommits pixels multi d0 n) →
      ∃ c r, c < n ∧ r < 7 ∧ d = cellDate d0 c r := by
  intro n
  induction n with
  | zero => intro d h; simp [scheduleCommits, commitDates] at h
  | succ n ih =>
    intro d h
    rw [scheduleCommits_succ, commitDates_append, List.mem_append] at h
    rcases h with h | h
    · obtain ⟨c, r, hc, hr, hd⟩ := ih d h
      exact ⟨c, r, by omega, hr, hd⟩
    · obtain ⟨r, hr, hd⟩ := mem_commitDates_rowsCommits pixels multi d0 n 7 d h
      exact ⟨n, r, by omega, hr, hd⟩

theorem pairwise_commitDates_scheduleCommits (pixels : Grid) (multi : Int) (d0 : Time) :
    ∀ n, (commitDates (scheduleCommits pixels multi d0 n)).Pairwise
      (fun a b => a.nsec ≤ b.nsec) := by
  intro n
  induction n with
  | zero => simp [scheduleCommits, commitDates]
  | succ n ih =>
    rw [scheduleCommits_succ, commitDates_append, List.pairwise_append]
    refine ⟨ih, pairwise_commitDates_rowsCommits pixels multi d0 n 7, ?_⟩
    intro a ha b hb
    obtain ⟨c, r, hc, hr, rfl⟩ := mem_commitDates_scheduleCommits pixels multi d0 n a ha
    obtain ⟨r2, hr2, rfl⟩ := mem_commitDates_rowsCommits pixels multi d0 n 7 b hb
    rw [cellDate_nsec, cellDate_nsec]
    omega

/-- In a list of dates that never decreases, equal dates are contiguous. -/
theorem contiguous_of_pairwise_le (l : List Time)
    (h : l.Pairwise (fun a b => a.nsec ≤ b.nsec)) (i j k : Nat) (hij : i ≤ j) (hjk : j ≤ k)
    (d : Time) (hi : l[i]? = some d) (hk : l[k]? = some d) : l[j]? = some d := by
  obtain ⟨hil, hie⟩ := List.getElem?_eq_some.1 hi
  obtain ⟨hkl, hke⟩ := List.getElem?_eq_some.1 hk
  have hjl : j < l.length := by omega
  rw [List.getElem?_eq_getElem hjl]
  rw [List.pairwise_iff_getElem] at h
  have h1 : l[i].nsec ≤ l[j].nsec := by
    rcases Nat.eq_or_lt_of_le hij with e | e
    · subst e; exact le_refl _
    · exact h i j hil hjl e
  have h2 : l[j].nsec ≤ l[k].nsec := by
    rcases Nat.eq_or_lt_of_le hjk with e | e
    · subst e; exact le_refl _
    · exact h j k hjl hkl e
  rw [hie] at h1
  rw [hke] at h2
  have : l[j].nsec = d.nsec := le_antisymm h2 h1
  congr 1
  cases hx : l[j] with
  | mk x => rw [hx] at this; cases d; simp_all

theorem visitedCells_length (d0 : Time) (n : Nat) : (visitedCells d0 n).length = n := by
  simp [visitedCells]

theorem visitedCells_getElem? (d0 : Time) {n k : Nat} (hk : k < n) :
    (visitedCells d0 n)[k]? = some (k / 7, k % 7, d0.Add ((k : Int) * (Hour * 24))) := by
  simp [visitedCells, List.getElem?_map, List.getElem?_range hk]

theorem visitedCells_dates_nodup (d0 : Time) (n : Nat) :
    ((visitedCells d0 n).map (fun v => v.2.2)).Nodup := by
  unfold visitedCells
  rw [List.map_map]
  apply List.Nodup.map_on _ (List.nodup_range n)
  intro a _ b _ h
  simp only [Function.comp, Time.Add, Hour, Time.mk.injEq] at h
  omega

theorem visitedCells_cells_nodup (d0 : Time) (n : Nat) :
    ((visitedCells d0 n).map (fun v => (v.1, v.2.1))).Nodup := by
  unfold visitedCells
  rw [List.map_map]
  apply List.Nodup.map_on _ (List.nodup_range n)
  intro a _ b _ h
  simp only [Function.comp, Prod.mk.injEq] at h
  omega

/-! ## The schedule, the preview and the dry run -/

theorem cellDate_shift (startdate : Time) (c r : Nat) :
    cellDate (startdate.Add ((Hour * 24) * 7)) c r
      = startdate.Add (((7 + (c * 7 + r) : Nat) : Int) * (Hour * 24)) := by
  unfold cellDate
  rw [Time.add_add]
  apply congrArg
  push_cast; ring

set_option maxRecDepth 1000000 in
/-- C4 as stated fails: with start date 0 and a single glyph whose only populated
cell is column 1, row 0, the one commit statement is dated 14 days after the start
date supplied to `buildScript`, not `1*7 + 0 = 7` days after it. -/
theorem commit_date_unshifted_counterexample :
    (composite [spot 1]).map (fun st => readCell st.pixels 0 1) = some (some 1) ∧
    (buildScriptBuffer sampleRune false false "u" "r" "t" 1 ⟨0⟩ [spot 1]).map commitDates
      = some [⟨1209600000000000⟩] ∧
    (⟨0⟩ : Time).Add (((1 * 7 + 0 : Nat) : Int) * (Hour * 24)) = ⟨604800000000000⟩ ∧
    (⟨1209600000000000⟩ : Time) ≠ ⟨604800000000000⟩ := by
  decide

theorem mem_scheduleCommits (pixels : Grid) (multi : Int) (d0 : Time) :
    ∀ n x, x ∈ scheduleCommits pixels multi d0 n → ∃ d, x = Piece.commit d := by
  intro n x hx
  simp only [scheduleCommits, rowsCommits, cellCommits, List.mem_flatten, List.mem_map] at hx
  obtain ⟨l, ⟨c, _, rfl⟩, hx⟩ := hx
  simp only [List.mem_flatten, List.mem_map] at hx
  obtain ⟨l2, ⟨r, _, rfl⟩, hx⟩ := hx
  exact ⟨_, (List.mem_replicate.1 hx).2⟩

theorem commitDates_output (a b z : Piece) (ha : ∀ d, a ≠ Piece.commit d)
    (hb : ∀ d, b ≠ Piece.commit d) (hz : ∀ d, z ≠ Piece.commit d) (l : List Piece) :
    commitDates (a :: b :: (l ++ [z])) = commitDates l := by
  cases a with
  | commit d => exact absurd rfl (ha d)
  | header _ | preview _ | footer _ _ _ =>
    cases b with
    | commit d => exact absurd rfl (hb d)
    | header _ | preview _ | footer _ _ _ =>
      cases z with
      | commit d => exact absurd rfl (hz d)
      | header _ | preview _ | footer _ _ _ =>
        simp [commitDates, commitDates_append]

theorem scheduleCommits_shift (pixels : Grid) (multi : Int) (startdate : Time) (n : Nat) :
    scheduleCommits pixels multi (startdate.Add ((Hour * 24) * 7)) n
      = ((List.range n).map (fun c => ((List.range 7).map (fun r =>
          List.replicate (cellCount pixels multi c r)
            (Piece.commit
              (startdate.Add (((7 + (c * 7 + r) : Nat) : Int) * (Hour * 24)))))).flatten)).flatten := by
  unfold scheduleCommits rowsCommits
  congr 2
  funext c
  congr 2
  funext r
  rw [cellCommits, cellDate_shift]

/-- C4 (amended). With dry-run off the buffer is the prologue, the preview, then for
every cell in column-major order its commit statements, then the epilogue; every
commit statement of the cell at column `c`, row `r` carries the date
`startdate + 7 days + (c*7 + r) days`, `startdate` being the argument of
`buildScript`. -/
theorem commit_date_shifted (PixelRune : Nat → Option Char) (usessh : Bool)
    (user repo text : String) (multi : Int) (startdate : Time) (symbols : List Symbol)
    (hwf : ∀ s ∈ symbols, s.wellFormed) :
    ∃ st, composite symbols = some st ∧
      buildScriptBuffer PixelRune false usessh user repo text multi startdate symbols
        = some (Piece.header repo :: Piece.preview (previewText PixelRune st.pixels) ::
            (((List.range 52).map (fun c => ((List.range 7).map (fun r =>
                List.replicate (cellCount st.pixels multi c r)
                  (Piece.commit
                    (startdate.Add (((7 + (c * 7 + r) : Nat) : Int) * (Hour * 24)))))).flatten)).flatten
              ++ [Piece.footer usessh user repo])) := by
  obtain ⟨st, hst, _, _, _, hbuf⟩ :=
    buildScriptBuffer_spec PixelRune false usessh user repo text multi startdate symbols
      (allIndexSafe hwf)
  refine ⟨st, hst, ?_⟩
  rw [hbuf, scheduleCommits_shift]
  rfl

/-- The commit dates of the scenario "HI" with multiplier 2 and start date 0. -/
theorem commit_date_shifted_witness :
    (∀ s ∈ [glyphH, glyphI], s.wellFormed) ∧
    ∃ st, composite [glyphH, glyphI] = some st ∧
      buildScriptBuffer sampleRune false false "u" "r" "HI" 2 ⟨0⟩ [glyphH, glyphI]
        = some (Piece.header "r" :: Piece.preview (previewText sampleRune st.pixels) ::
            (((List.range 52).map (fun c => ((List.range 7).map (fun r =>
                List.replicate (cellCount st.pixels 2 c r)
                  (Piece.commit
                    ((⟨0⟩ : Time).Add (((7 + (c * 7 + r) : Nat) : Int) * (Hour * 24)))))).flatten)).flatten
              ++ [Piece.footer false "u" "r"])) :=
  ⟨by decide, commit_date_shifted sampleRune false "u" "r" "HI" 2 ⟨0⟩ [glyphH, glyphI] (by decide)⟩

set_option maxRecDepth 1000000 in
/-- C5 as stated fails: with the non-negative multiplier `2^62` and a cell of
intensity 4 the loop bound `int(pixels[r][c])*multi` is `2^64`, which is 0 as a
64-bit `int`; no commit statement is written at all, not `4 * 2^62`. -/
theorem repetition_count_overflow_counterexample :
    (composite [spot 4]).map (fun st => readCell st.pixels 0 1) = some (some 4) ∧
    (0 : Int) ≤ 4611686018427387904 ∧
    (buildScriptBuffer sampleRune false false "u" "r" "t" 4611686018427387904 ⟨0⟩
        [spot 4]).map commitDates = some [] ∧
    (buildScriptBuffer sampleRune false false "u" "r" "t" 4611686018427387904 ⟨0⟩
        [spot 4]).map (fun out => ((out.count (Piece.commit
          ((⟨0⟩ : Time).Add (((7 + (1 * 7 + 0) : Nat) : Int) * (Hour * 24)))) : Nat) : Int))
      = some 0 ∧
    (0 : Int) ≠ 4 * 4611686018427387904 := by
  decide

/-- C5 (amended). With dry-run off and a non-negative multiplier `m`, the number of
commit statements carrying the date of the cell at column `c`, row `r` is
`grid[r][c] * m` whenever that product is below `2^63` (it fits the 64-bit `int`);
a cell of intensity 0 contributes no statement. -/
theorem repetition_count (PixelRune : Nat → Option Char) (usessh : Bool)
    (user repo text : String) (multi : Int) (startdate : Time) (symbols : List Symbol)
    (hwf : ∀ s ∈ symbols, s.wellFormed) (hm : 0 ≤ multi) :
    ∃ st out, composite symbols = some st ∧
      buildScriptBuffer PixelRune false usessh user repo text multi startdate symbols
        = some out ∧
      ∀ c r, c < 52 → r < 7 → ∃ p, readCell st.pixels r c = some p ∧
        (p = 0 → out.count (Piece.commit
          (startdate.Add (((7 + (c * 7 + r) : Nat) : Int) * (Hour * 24)))) = 0) ∧
        ((p : Int) * multi < 9223372036854775808 →
          ((out.count (Piece.commit
            (startdate.Add (((7 + (c * 7 + r) : Nat) : Int) * (Hour * 24)))) : Nat) : Int)
            = (p : Int) * multi) := by
  obtain ⟨st, hst, hsh, _, _, hbuf⟩ :=
    buildScriptBuffer_spec PixelRune false usessh user repo text multi startdate symbols
      (allIndexSafe hwf)
  refine ⟨st, _, hst, hbuf, ?_⟩
  intro c r hc hr
  obtain ⟨p, hp⟩ := readCell_isSome hsh hr hc
  have hcount : (if false = true then [Piece.preview (previewText PixelRune st.pixels)]
        else Piece.header repo :: Piece.preview (previewText PixelRune st.pixels) ::
          (scheduleCommits st.pixels multi (startdate.Add ((Hour * 24) * 7)) 52
            ++ [Piece.footer usessh user repo])).count (Piece.commit
        (startdate.Add (((7 + (c * 7 + r) : Nat) : Int) * (Hour * 24))))
      = cellCount st.pixels multi c r := by
    rw [← cellDate_shift]
    simp [List.count_cons, List.count_append, count_scheduleCommits st.pixels multi _ hr, hc]
  refine ⟨p, hp, ?_, ?_⟩
  · intro h0
    subst h0
    rw [hcount]
    simp [cellCount, hp, wrapInt_zero]
  · intro hlt
    rw [hcount]
    have h0 : 0 ≤ (p : Int) * multi := mul_nonneg (Int.ofNat_nonneg p) hm
    simp only [cellCount, hp]
    rw [wrapInt_of_nonneg_lt h0 hlt]
    exact Int.toNat_of_nonneg h0

/-- The repetition counts for one glyph with a cell of intensity 3 and multiplier 2. -/
theorem repetition_count_witness :
    (∀ s ∈ [spot 3], s.wellFormed) ∧ (0 : Int) ≤ 2 ∧
    ∃ st out, composite [spot 3] = some st ∧
      buildScriptBuffer sampleRune false false "u" "r" "t" 2 ⟨0⟩ [spot 3] = some out ∧
      ∀ c r, c < 52 → r < 7 → ∃ p, readCell st.pixels r c = some p ∧
        (p = 0 → out.count (Piece.commit
          ((⟨0⟩ : Time).Add (((7 + (c * 7 + r) : Nat) : Int) * (Hour * 24)))) = 0) ∧
        ((p : Int) * 2 < 9223372036854775808 →
          ((out.count (Piece.commit
            ((⟨0⟩ : Time).Add (((7 + (c * 7 + r) : Nat) : Int) * (Hour * 24)))) : Nat) : Int)
            = (p : Int) * 2) :=
  ⟨by decide, by decide,
    repetition_count sampleRune false "u" "r" "t" 2 ⟨0⟩ [spot 3] (by decide) (by decide)⟩

set_option maxRecDepth 1000000 in
/-- A cell of intensity 3 with multiplier 2 yields exactly 6 commit statements, all
with the same date. -/
theorem repetition_count_three_times_two :
    (composite [spot 3]).map (fun st => readCell st.pixels 0 1) = some (some 3) ∧
    (buildScriptBuffer sampleRune false false "u" "r" "t" 2 ⟨0⟩ [spot 3]).map commitDates
      = some (List.replicate 6 ((⟨0⟩ : Time).Add (((7 + (1 * 7 + 0) : Nat) : Int) * (Hour * 24)))) := by
  decide

/-- C6. With dry-run off the commit statements are written cell by cell in
column-major order (columns 0..51 outer, rows 0..6 inner); the dates of the written
statements never decrease, a statement of an earlier cell precedes every statement of
a later cell, and statements with equal dates are contiguous. -/
theorem commit_order (PixelRune : Nat → Option Char) (usessh : Bool)
    (user repo text : String) (multi : Int) (startdate : Time) (symbols : List Symbol)
    (hwf : ∀ s ∈ symbols, s.wellFormed) :
    ∃ st out, composite symbols = some st ∧
      buildScriptBuffer PixelRune false usessh user repo text multi startdate symbols
        = some out ∧
      out = Piece.header repo :: Piece.preview (previewText PixelRune st.pixels) ::
        (((List.range 52).map (fun c => ((List.range 7).map (fun r =>
            cellCommits st.pixels multi (startdate.Add ((Hour * 24) * 7)) c r)).flatten)).flatten
          ++ [Piece.footer usessh user repo]) ∧
      (commitDates out).Pairwise (fun a b => a.nsec ≤ b.nsec) ∧
      (∀ i j c r c1 r1 : Nat, r < 7 → r1 < 7 → 7 * c + r < 7 * c1 + r1 →
        (commitDates out)[i]? = some (cellDate (startdate.Add ((Hour * 24) * 7)) c r) →
        (commitDates out)[j]? = some (cellDate (startdate.Add ((Hour * 24) * 7)) c1 r1) →
        i < j) ∧
      (∀ (i j k : Nat) (d : Time), i ≤ j → j ≤ k → (commitDates out)[i]? = some d →
        (commitDates out)[k]? = some d → (commitDates out)[j]? = some d) := by
  obtain ⟨st, hst, _, _, _, hbuf⟩ :=
    buildScriptBuffer_spec PixelRune false usessh user repo text multi startdate symbols
      (allIndexSafe hwf)
  have hdates : commitDates (Piece.header repo :: Piece.preview (previewText PixelRune st.pixels) ::
      (scheduleCommits st.pixels multi (startdate.Add ((Hour * 24) * 7)) 52
        ++ [Piece.footer usessh user repo]))
      = commitDates (scheduleCommits st.pixels multi (startdate.Add ((Hour * 24) * 7)) 52) :=
    commitDates_output _ _ _ (by intro d h; cases h) (by intro d h; cases h)
      (by intro d h; cases h) _
  have hpw := pairwise_commitDates_scheduleCommits st.pixels multi
    (startdate.Add ((Hour * 24) * 7)) 52
  refine ⟨st, _, hst, hbuf, rfl, ?_, ?_, ?_⟩
  · simp only [Bool.false_eq_true, if_false]
    rw [hdates]; exact hpw
  · simp only [Bool.false_eq_true, if_false]
    rw [hdates]
    intro i j c r c1 r1 hr hr1 hlt hi hj
    by_contra hnot
    obtain ⟨hil, hie⟩ := List.getElem?_eq_some.1 hi
    obtain ⟨hjl, hje⟩ := List.getElem?_eq_some.1 hj
    have hd : (cellDate (startdate.Add ((Hour * 24) * 7)) c r).nsec
        < (cellDate (startdate.Add ((Hour * 24) * 7)) c1 r1).nsec := by
      rw [cellDate_nsec, cellDate_nsec]; omega
    rcases Nat.eq_or_lt_of_le (Nat.le_of_not_lt hnot) with e | e
    · subst e
      rw [hie] at hje
      rw [hje] at hd
      exact lt_irrefl _ hd
    · have := (List.pairwise_iff_getElem.1 hpw) j i hjl hil e
      rw [hie, hje] at this
      omega
  · simp only [Bool.false_eq_true, if_false]
    rw [hdates]
    intro i j k d hij hjk hi hk
    exact contiguous_of_pairwise_le _ hpw i j k hij hjk d hi hk

/-- The commit dates of the scenario "HI" never decrease. -/
theorem commit_order_witness :
    (∀ s ∈ [glyphH, glyphI], s.wellFormed) ∧
    ∃ st out, composite [glyphH, glyphI] = some st ∧
      buildScriptBuffer sampleRune false false "u" "r" "HI" 2 ⟨0⟩ [glyphH, glyphI]
        = some out ∧
      (commitDates out).Pairwise (fun a b => a.nsec ≤ b.nsec) :=
  ⟨by decide,
    (commit_order sampleRune false "u" "r" "HI" 2 ⟨0⟩ [glyphH, glyphI] (by decide)).imp
      fun _ h => h.imp fun _ h1 => ⟨h1.1, h1.2.1, h1.2.2.2.1⟩⟩

/-- C7. On every buffer of 7 rows of 52 cells, whatever its contents and the
multiplier, the schedule walk returns after visiting 364 cells: cell number `k`
(column `k / 7`, row `k % 7`) is visited with the cursor at its start value plus `k`
days, the 364 dates are pairwise distinct, every cell is visited once, and the cursor
ends 364 days after its start value. -/
theorem schedule_span (pixels : Grid) (hs : gridShape pixels) (multi : Int) (s : Sched) :
    ∃ s1 visits, schedule pixels multi s = some s1 ∧
      s1.startdate = s.startdate.Add (364 * (Hour * 24)) ∧
      s1.visited = s.visited ++ visits ∧ visits.length = 364 ∧
      (∀ k : Nat, k < 364 →
        visits[k]? = some (k / 7, k % 7, s.startdate.Add ((k : Int) * (Hour * 24)))) ∧
      (∀ k : Nat, k + 1 < 364 → ∀ v w, visits[k]? = some v → visits[k + 1]? = some w →
        w.2.2 = v.2.2.Add (Hour * 24)) ∧
      (visits.map (fun v => v.2.2)).Nodup ∧
      (visits.map (fun v => (v.1, v.2.1))).Nodup := by
  refine ⟨_, visitedCells s.startdate 364, schedule_spec hs multi s, rfl, rfl,
    visitedCells_length _ _, fun k hk => visitedCells_getElem? _ hk, ?_,
    visitedCells_dates_nodup _ _, visitedCells_cells_nodup _ _⟩
  intro k hk v w hv hw
  rw [visitedCells_getElem? _ (by omega)] at hv hw
  cases hv; cases hw
  simp only [Time.add_add]
  apply congrArg
  push_cast; ring

/-- The walk over the empty buffer still visits 364 cells and advances 364 days. -/
theorem schedule_span_witness :
    gridShape emptyGrid ∧
    ∃ s1 visits, schedule emptyGrid 2 ⟨⟨0⟩, [], []⟩ = some s1 ∧
      s1.startdate = (⟨0⟩ : Time).Add (364 * (Hour * 24)) ∧
      s1.visited = [] ++ visits ∧ visits.length = 364 :=
  ⟨by decide,
    (schedule_span emptyGrid (by decide) 2 ⟨⟨0⟩, [], []⟩).imp
      fun _ h => h.imp fun _ h1 => ⟨h1.1, h1.2.1, h1.2.2.1, h1.2.2.2.1⟩⟩

/-- C10. Whatever the glyphs, the schedule walk of `buildScript` starts with the
cursor exactly 7 days (`7 * 86400000000000` nanoseconds) after the start date it was
given: the cell at column 0, row 0 gets the instant `startdate + 604800000000000 ns`,
the cell at column `c`, row `r` gets `startdate + (7 + 7*c + r) * 86400000000000 ns`
and no other date, and every commit statement written carries such an instant. -/
theorem schedule_week_offset (PixelRune : Nat → Option Char) (usessh : Bool)
    (user repo text : String) (multi : Int) (startdate : Time) (symbols : List Symbol)
    (hwf : ∀ s ∈ symbols, s.wellFormed) :
    ∃ st sch, composite symbols = some st ∧
      schedule st.pixels multi ⟨startdate.Add ((Hour * 24) * 7),
          [Piece.header repo, Piece.preview (previewText PixelRune st.pixels)], []⟩
        = some sch ∧
      buildScriptBuffer PixelRune false usessh user repo text multi startdate symbols
        = some (sch.buffer ++ [Piece.footer usessh user repo]) ∧
      sch.visited[0]? = some (0, 0, startdate.Add (7 * (Hour * 24))) ∧
      (∀ c r, c < 52 → r < 7 →
        sch.visited[7 * c + r]?
          = some (c, r, startdate.Add (((7 + 7 * c + r : Nat) : Int) * (Hour * 24)))) ∧
      (∀ c r d, (c, r, d) ∈ sch.visited →
        d = startdate.Add (((7 + 7 * c + r : Nat) : Int) * (Hour * 24))) ∧
      sch.visited[0]? = some (0, 0, ⟨startdate.nsec + 604800000000000⟩) ∧
      (∀ c r : Nat, c < 52 → r < 7 →
        sch.visited[7 * c + r]?
          = some (c, r, ⟨startdate.nsec + (7 + 7 * (c : Int) + r) * 86400000000000⟩)) ∧
      (∀ (c r : Nat) (d : Time), (c, r, d) ∈ sch.visited →
        d.nsec = startdate.nsec + (7 + 7 * (c : Int) + r) * 86400000000000) ∧
      (∀ d ∈ commitDates (sch.buffer ++ [Piece.footer usessh user repo]),
        ∃ c r : Nat, c < 52 ∧ r < 7 ∧
          d.nsec = startdate.nsec + (7 + 7 * (c : Int) + r) * 86400000000000) := by
  obtain ⟨st, hst, _, _, hsched, hbuf⟩ :=
    buildScriptBuffer_spec PixelRune false usessh user repo text multi startdate symbols
      (allIndexSafe hwf)
  have hcell : ∀ k, k < 364 →
      (visitedCells (startdate.Add ((Hour * 24) * 7)) 364)[k]?
        = some (k / 7, k % 7, startdate.Add (((7 + k : Nat) : Int) * (Hour * 24))) := by
    intro k hk
    rw [visitedCells_getElem? _ hk, Time.add_add]
    have : Hour * 24 * 7 + (k : Int) * (Hour * 24) = ((7 + k : Nat) : Int) * (Hour * 24) := by
      push_cast; ring
    rw [this]
  have hnum : ∀ k : Nat, startdate.Add (((7 + k : Nat) : Int) * (Hour * 24))
      = ⟨startdate.nsec + (7 + (k : Int)) * 86400000000000⟩ := by
    intro k
    simp only [Time.Add, Hour, Time.mk.injEq]
    push_cast
    ring
  have hcellAt : ∀ c r : Nat, c < 52 → r < 7 →
      (visitedCells (startdate.Add ((Hour * 24) * 7)) 364)[7 * c + r]?
        = some (c, r, startdate.Add (((7 + 7 * c + r : Nat) : Int) * (Hour * 24))) := by
    intro c r hc hr
    have h := hcell (7 * c + r) (by omega)
    have h1 : (7 * c + r) / 7 = c := by omega
    have h2 : (7 * c + r) % 7 = r := by omega
    rw [h1, h2] at h
    simpa [Nat.add_assoc] using h
  have hmemAt : ∀ (c r : Nat) (d : Time),
      (c, r, d) ∈ visitedCells (startdate.Add ((Hour * 24) * 7)) 364 →
        d = startdate.Add (((7 + 7 * c + r : Nat) : Int) * (Hour * 24)) := by
    intro c r d hmem
    obtain ⟨k, hk⟩ := List.mem_iff_getElem?.1 hmem
    have hlt : k < 364 := by
      have := (List.getElem?_eq_some.1 hk).1
      simpa [visitedCells_length] using this
    rw [hcell k hlt] at hk
    simp only [Option.some.injEq, Prod.mk.injEq] at hk
    obtain ⟨h1, h2, h3⟩ := hk
    have : 7 + 7 * c + r = 7 + k := by omega
    rw [this, ← h3]
  have hshift : ∀ c r : Nat, startdate.Add (((7 + 7 * c + r : Nat) : Int) * (Hour * 24))
      = ⟨startdate.nsec + (7 + 7 * (c : Int) + r) * 86400000000000⟩ := by
    intro c r
    have e : 7 + 7 * c + r = 7 + (7 * c + r) := by omega
    rw [e, hnum]
    simp only [Time.mk.injEq]
    push_cast
    ring
  refine ⟨st, _, hst, hsched, ?_, ?_, hcellAt, hmemAt, ?_, ?_, ?_, ?_⟩
  · rw [hbuf]; simp
  · simpa using hcell 0 (by omega)
  · have h := hcellAt 0 0 (by omega) (by omega)
    rw [hshift] at h
    simpa using h
  · intro c r hc hr
    rw [← hshift]
    exact hcellAt c r hc hr
  · intro c r d hmem
    rw [hmemAt c r d hmem, hshift]
  · intro d hd
    rw [List.append_assoc, commitDates_append, List.mem_append] at hd
    rcases hd with hd | hd
    · simp [commitDates] at hd
    · rw [commitDates_append, List.mem_append] at hd
      rcases hd with hd | hd
      · obtain ⟨c, r, hc, hr, rfl⟩ :=
          mem_commitDates_scheduleCommits st.pixels multi _ 52 d hd
        refine ⟨c, r, hc, hr, ?_⟩
        rw [cellDate_nsec]
        simp only [Time.Add, Hour]
        ring
      · simp [commitDates] at hd

/-- In the scenario "HI" with start date 0 the first cell is dated day 7, the
instant 604800000000000 ns, and the cell at column 1, row 0 day 14. -/
theorem schedule_week_offset_witness :
    (∀ s ∈ [glyphH, glyphI], s.wellFormed) ∧
    ∃ st sch, composite [glyphH, glyphI] = some st ∧
      schedule st.pixels 2 ⟨(⟨0⟩ : Time).Add ((Hour * 24) * 7),
          [Piece.header "r", Piece.preview (previewText sampleRune st.pixels)], []⟩
        = some sch ∧
      buildScriptBuffer sampleRune false false "u" "r" "HI" 2 ⟨0⟩ [glyphH, glyphI]
        = some (sch.buffer ++ [Piece.footer false "u" "r"]) ∧
      sch.visited[0]? = some (0, 0, ⟨604800000000000⟩) ∧
      sch.visited[7 * 1 + 0]? = some (1, 0, ⟨1209600000000000⟩) :=
  ⟨by decide,
    (schedule_week_offset sampleRune false "u" "r" "HI" 2 ⟨0⟩ [glyphH, glyphI] (by decide)).imp
      fun _ h => h.imp fun _ h1 =>
        ⟨h1.1, h1.2.1, h1.2.2.1, h1.2.2.2.2.2.2.1,
          h1.2.2.2.2.2.2.2.1 1 0 (by decide) (by decide)⟩⟩

/-- C8. On every buffer of 7 rows of 52 cells and for every table `PixelRune`,
`printHistogram` returns the banner, 7 lines made of `"#    "`, 52 symbols and a
newline, and a final newline (441 characters); the symbol of the cell at row `r`,
column `c` is character `39 + 58*r + c`, equal to `PixelRune[grid[r][c]]` when the
level is in the table and to `'!'` otherwise.  Storing a level outside the table in
one cell turns that cell's symbol into `'!'` and keeps the symbol of every other
cell. -/
theorem printHistogram_preview (PixelRune : Nat → Option Char) (pixels : Grid)
    (hs : gridShape pixels) :
    ∃ text, printHistogram PixelRune pixels = some text ∧
      text = previewText PixelRune pixels ∧ text.length = 441 ∧
      (∀ r c : Nat, r < 7 → c < 52 → ∃ b, readCell pixels r c = some b ∧
        text.data[39 + 58 * r + c]?
          = some (match PixelRune b with
            | some sym => sym
            | none => '!')) ∧
      (∀ (r0 c0 v : Nat), r0 < 7 → c0 < 52 → PixelRune v = none →
        ∃ pixels1 text1, writeCell pixels r0 (c0 : Int) v = some pixels1 ∧
          printHistogram PixelRune pixels1 = some text1 ∧ text1.length = 441 ∧
          text1.data[39 + 58 * r0 + c0]? = some '!' ∧
          ∀ r c : Nat, r < 7 → c < 52 → (r ≠ r0 ∨ c ≠ c0) →
            text1.data[39 + 58 * r + c]? = text.data[39 + 58 * r + c]?) := by
  refine ⟨_, printHistogram_eq PixelRune hs, rfl, previewText_length _ _, ?_, ?_⟩
  · intro r c hr hc
    obtain ⟨b, hb⟩ := readCell_isSome hs hr hc
    refine ⟨b, hb, ?_⟩
    rw [previewText_symbol PixelRune pixels hr hc]
    cases hpr : PixelRune b <;> simp [symbolAt, hb, symbolOf, hpr]
  · intro r0 c0 v hr0 hc0 hv
    obtain ⟨p1, hp1, hs1, hc1⟩ :=
      writeCell_spec hs hr0 (i := (c0 : Int)) (by omega) (by omega) v
    refine ⟨p1, _, hp1, printHistogram_eq PixelRune hs1, previewText_length _ _, ?_, ?_⟩
    · rw [previewText_symbol PixelRune p1 hr0 hc0]
      have : readCell p1 r0 c0 = some v := by rw [hc1, if_pos ⟨rfl, rfl⟩]
      simp only [symbolAt, this, symbolOf, hv]
    · intro r c hr hc hne
      rw [previewText_symbol PixelRune p1 hr hc, previewText_symbol PixelRune pixels hr hc]
      have : readCell p1 r c = readCell pixels r c := by
        rw [hc1, if_neg]
        rintro ⟨h1, h2⟩
        rcases hne with h | h
        · exact h h1
        · exact h (by omega)
      simp only [symbolAt, this]

/-- The preview of the empty buffer has 441 characters. -/
theorem printHistogram_preview_witness :
    gridShape emptyGrid ∧
    ∃ text, printHistogram sampleRune emptyGrid = some text ∧
      text = previewText sampleRune emptyGrid ∧ text.length = 441 :=
  ⟨by decide,
    (printHistogram_preview sampleRune emptyGrid (by decide)).imp
      fun _ h => ⟨h.1, h.2.1, h.2.2.1⟩⟩

theorem String.foldl_append_acc (l : List String) (acc : String) :
    List.foldl (fun r s => r ++ s) acc l = acc ++ List.foldl (fun r s => r ++ s) "" l := by
  induction l generalizing acc with
  | nil => simp
  | cons x xs ih =>
    rw [List.foldl_cons, List.foldl_cons, ih (acc ++ x), ih ("" ++ x)]
    simp [String.append_assoc]

theorem String.join_cons (x : String) (l : List String) :
    String.join (x :: l) = x ++ String.join l := by
  unfold String.join
  rw [List.foldl_cons, String.foldl_append_acc]
  simp

/-- C9. With `dryrun` set `buildScript` returns exactly the preview
`printHistogram` gives for the composited grid: one write, no prologue, no commit
statement, no epilogue, whatever the multiplier, start date, user, repo and ssh flag;
with `dryrun` off the same preview string is the second piece of the output, between
the prologue and the commit statements. -/
theorem dryrun_preview_only (format : Time → String) (PixelRune : Nat → Option Char)
    (usessh : Bool) (user repo text : String) (multi : Int) (startdate : Time)
    (symbols : List Symbol) (hwf : ∀ s ∈ symbols, s.wellFormed) :
    ∃ st preview, composite symbols = some st ∧
      printHistogram PixelRune st.pixels = some preview ∧
      buildScriptBuffer PixelRune true usessh user repo text multi startdate symbols
        = some [Piece.preview preview] ∧
      buildScript format PixelRune true usessh user repo text multi startdate symbols
        = some preview ∧
      (∀ format1 usessh1 user1 repo1 text1 multi1 startdate1,
        buildScript format1 PixelRune true usessh1 user1 repo1 text1 multi1 startdate1 symbols
          = some preview) ∧
      ∃ commits, (∀ x ∈ commits, ∃ d, x = Piece.commit d) ∧
        buildScriptBuffer PixelRune false usessh user repo text multi startdate symbols
          = some (Piece.header repo :: Piece.preview preview ::
              (commits ++ [Piece.footer usessh user repo])) ∧
        buildScript format PixelRune false usessh user repo text multi startdate symbols
          = some (Piece.render format (Piece.header repo) ++ (preview
              ++ String.join ((commits ++ [Piece.footer usessh user repo]).map
                  (Piece.render format)))) := by
  obtain ⟨st, hst, _, hprint, _, hdry⟩ :=
    buildScriptBuffer_spec PixelRune true usessh user repo text multi startdate symbols
      (allIndexSafe hwf)
  obtain ⟨st2, hst2, _, _, _, hwet⟩ :=
    buildScriptBuffer_spec PixelRune false usessh user repo text multi startdate symbols
      (allIndexSafe hwf)
  have e : st2 = st := by rw [hst] at hst2; cases hst2; rfl
  subst e
  have hall : ∀ format1 usessh1 user1 repo1 text1 multi1 startdate1,
      buildScript format1 PixelRune true usessh1 user1 repo1 text1 multi1 startdate1 symbols
        = some (previewText PixelRune st2.pixels) := by
    intro format1 usessh1 user1 repo1 text1 multi1 startdate1
    obtain ⟨st3, hst3, _, _, _, h3⟩ :=
      buildScriptBuffer_spec PixelRune true usessh1 user1 repo1 text1 multi1 startdate1
        symbols (allIndexSafe hwf)
    have e3 : st3 = st2 := by rw [hst] at hst3; cases hst3; rfl
    subst e3
    unfold buildScript
    rw [h3]
    simp [String.join, Piece.render]
  refine ⟨st2, _, hst, hprint, by simpa using hdry,
    hall format usessh user repo text multi startdate, hall, _,
    mem_scheduleCommits st2.pixels multi _ 52, by simpa using hwet, ?_⟩
  unfold buildScript
  rw [hwet]
  simp only [Bool.false_eq_true, if_false, List.map_cons, String.join_cons]
  rfl

/-- The dry run of the scenario "HI" returns the preview alone. -/
theorem dryrun_preview_only_witness :
    (∀ s ∈ [glyphH, glyphI], s.wellFormed) ∧
    ∃ st preview, composite [glyphH, glyphI] = some st ∧
      printHistogram sampleRune st.pixels = some preview ∧
      buildScriptBuffer sampleRune true false "u" "r" "HI" 2 ⟨0⟩ [glyphH, glyphI]
        = some [Piece.preview preview] ∧
      buildScript (fun _ => "") sampleRune true false "u" "r" "HI" 2 ⟨0⟩ [glyphH, glyphI]
        = some preview :=
  ⟨by decide,
    (dryrun_preview_only (fun _ => "") sampleRune false "u" "r" "HI" 2 ⟨0⟩ [glyphH, glyphI]
      (by decide)).imp fun _ h => h.imp fun _ h1 => ⟨h1.1, h1.2.1, h1.2.2.1, h1.2.2.2.1⟩⟩

/-! ## The offset of the rendering loop -/

theorem renderTrace_head (symbols : List Symbol) (st : Layout) :
    (renderTrace symbols st)[0]? = some st := by
  cases symbols with
  | nil => rfl
  | cons l ls =>
    unfold renderTrace
    split
    · split <;> simp
    · simp

theorem renderTrace_getLast : ∀ (symbols : List Symbol) (st st1 : Layout),
    renderSymbols symbols st = some st1 → (renderTrace symbols st).getLast? = some st1 := by
  intro symbols
  induction symbols with
  | nil =>
    intro st st1 h
    simp [renderSymbols] at h
    subst h; rfl
  | cons l ls ih =>
    intro st st1 h
    by_cases hfit : st.curcol + l.Width < 52
    · simp only [renderSymbols, renderTrace, hfit, if_true] at h ⊢
      cases hcp : copySymbol l st.curcol (List.range 7) st.pixels with
      | none => rw [hcp] at h; simp at h
      | some p1 =>
        rw [hcp] at h
        simp only at h ⊢
        have h1 := ih _ st1 h
        have hne : renderTrace ls ⟨p1, st.curcol + l.Width, st.placed + 1⟩ ≠ [] := by
          intro e; rw [e] at h1; simp at h1
        obtain ⟨x, xs, hx⟩ := List.exists_cons_of_ne_nil hne
        rw [hx] at h1 ⊢
        rw [List.getLast?_cons_cons]; exact h1
    · simp only [renderSymbols, renderTrace, hfit, if_false] at h ⊢
      simp at h
      subst h; rfl

theorem offsetOf_succ : ∀ (symbols : List Symbol) (curcol : Int) (k : Nat) (g : Symbol),
    symbols[k]? = some g →
      offsetOf curcol symbols (k + 1) = offsetOf curcol symbols k + g.Width := by
  intro symbols
  induction symbols with
  | nil => intro curcol k g h; simp at h
  | cons l ls ih =>
    intro curcol k g h
    cases k with
    | zero =>
      simp at h
      subst h
      simp [offsetOf]
    | succ j =>
      rw [offsetOf_cons_succ, offsetOf_cons_succ]
      exact ih _ j g (by simpa using h)

theorem renderTrace_spec : ∀ (symbols : List Symbol) (st : Layout) (k : Nat) (s : Layout),
    (renderTrace symbols st)[k]? = some s →
      s.placed = st.placed + k ∧ s.curcol = offsetOf st.curcol symbols k ∧
        k ≤ symbols.length ∧ (k = 0 ∨ s.curcol < 52) := by
  intro symbols
  induction symbols with
  | nil =>
    intro st k s h
    cases k with
    | zero =>
      simp [renderTrace] at h
      subst h
      simp [offsetOf]
    | succ j => simp [renderTrace] at h
  | cons l ls ih =>
    intro st k s h
    cases k with
    | zero =>
      rw [renderTrace_head] at h
      cases h
      simp [offsetOf]
    | succ j =>
      by_cases hfit : st.curcol + l.Width < 52
      · simp only [renderTrace, hfit, if_true] at h
        cases hcp : copySymbol l st.curcol (List.range 7) st.pixels with
        | none => rw [hcp] at h; simp at h
        | some p1 =>
          rw [hcp] at h
          simp only [List.getElem?_cons_succ] at h
          obtain ⟨h1, h2, h3, h4⟩ := ih _ j s h
          simp only at h1 h2 h4
          refine ⟨by omega, by rw [offsetOf_cons_succ]; exact h2, by simp; omega, Or.inr ?_⟩
          rcases h4 with h4 | h4
          · subst h4
            rw [h2, offsetOf_zero]; exact hfit
          · exact h4
      · simp only [renderTrace, hfit, if_false] at h
        simp at h

/-- C11. For glyphs whose `Width()` is the length of one of their rows (hence
non-negative) the offset `curcol` of the rendering loop starts at 1; at the `k`-th loop state `k` glyphs have been placed and `curcol` is
`1 + (sum of their widths)`; from one state to the next it grows by exactly the width
of the glyph placed, so it never decreases; it is at least 1 and stays below 52 (so it
never exceeds the column bound) at every state, the final one included. -/
theorem offset_invariant (symbols : List Symbol) (hrow : ∀ s ∈ symbols, s.rowWidth) :
    (renderTrace symbols ⟨emptyGrid, 1, 0⟩)[0]? = some ⟨emptyGrid, 1, 0⟩ ∧
    (∀ (k : Nat) (s : Layout), (renderTrace symbols ⟨emptyGrid, 1, 0⟩)[k]? = some s →
      s.placed = k ∧ s.curcol = 1 + ((symbols.take k).map Symbol.Width).sum ∧
        1 ≤ s.curcol ∧ s.curcol < 52 ∧ s.curcol ≤ 52) ∧
    (∀ (k : Nat) (s s1 : Layout), (renderTrace symbols ⟨emptyGrid, 1, 0⟩)[k]? = some s →
      (renderTrace symbols ⟨emptyGrid, 1, 0⟩)[k + 1]? = some s1 →
        ∃ g, symbols[k]? = some g ∧ s1.curcol = s.curcol + g.Width ∧ s.curcol ≤ s1.curcol) ∧
    (∀ st, composite symbols = some st →
      (renderTrace symbols ⟨emptyGrid, 1, 0⟩).getLast? = some st ∧
        st.curcol = 1 + ((symbols.take st.placed).map Symbol.Width).sum ∧
        1 ≤ st.curcol ∧ st.curcol ≤ 52) := by
  have hw := allWidthNonneg hrow
  have hspec : ∀ (k : Nat) (s : Layout),
      (renderTrace symbols ⟨emptyGrid, 1, 0⟩)[k]? = some s →
        s.placed = k ∧ s.curcol = offsetOf 1 symbols k ∧ k ≤ symbols.length ∧
          1 ≤ s.curcol ∧ s.curcol < 52 := by
    intro k s h
    obtain ⟨h1, h2, h3, h4⟩ := renderTrace_spec symbols _ k s h
    simp only at h1 h2 h4
    have h5 := offsetOf_ge_of_nonneg symbols 1 k hw
    refine ⟨by omega, h2, h3, by omega, ?_⟩
    rcases h4 with h4 | h4
    · subst h4; rw [h2, offsetOf_zero]; decide
    · exact h4
  refine ⟨renderTrace_head _ _, ?_, ?_, ?_⟩
  · intro k s h
    obtain ⟨h1, h2, _, h4, h5⟩ := hspec k s h
    exact ⟨h1, h2, h4, h5, by omega⟩
  · intro k s s1 h h1
    obtain ⟨_, h2, _, _, _⟩ := hspec k s h
    obtain ⟨_, h3, h4, _, _⟩ := hspec (k + 1) s1 h1
    have hk : k < symbols.length := by omega
    refine ⟨symbols[k], List.getElem?_eq_getElem hk, ?_, ?_⟩
    · rw [h3, h2, offsetOf_succ symbols 1 k _ (List.getElem?_eq_getElem hk)]
    · rw [h3, h2, offsetOf_succ symbols 1 k _ (List.getElem?_eq_getElem hk)]
      have := hw _ (List.getElem_mem hk)
      omega
  · intro st hst
    have hlast := renderTrace_getLast symbols _ st hst
    refine ⟨hlast, ?_⟩
    obtain ⟨k, hk⟩ : ∃ k, (renderTrace symbols ⟨emptyGrid, 1, 0⟩)[k]? = some st := by
      rw [List.getLast?_eq_getElem?] at hlast
      exact ⟨_, hlast⟩
    obtain ⟨h1, h2, _, h4, h5⟩ := hspec k st hk
    rw [h1]
    exact ⟨h2, h4, by omega⟩

/-- The offsets of the scenario "HI": 1, then 5, then 8. -/
theorem offset_invariant_witness :
    (∀ s ∈ [glyphH, glyphI], s.rowWidth) ∧
    (renderTrace [glyphH, glyphI] ⟨emptyGrid, 1, 0⟩).map (fun s => s.curcol) = [1, 5, 8] ∧
    ∀ (k : Nat) (s : Layout), (renderTrace [glyphH, glyphI] ⟨emptyGrid, 1, 0⟩)[k]? = some s →
      s.placed = k ∧ s.curcol = 1 + (([glyphH, glyphI].take k).map Symbol.Width).sum ∧
        1 ≤ s.curcol ∧ s.curcol < 52 ∧ s.curcol ≤ 52 :=
  ⟨by decide, by decide, (offset_invariant [glyphH, glyphI] (by decide)).2.1⟩

/-! ## The grid invariant and the margins -/

theorem writeCell_read {pixels pixels1 : Grid} {r : Nat} {i : Int} {v : Nat}
    (h : writeCell pixels r i v = some pixels1) :
    ∀ r1 c1 : Nat, readCell pixels1 r1 c1 =
      if r1 = r ∧ (c1 : Int) = i then some v else readCell pixels r1 c1 := by
  unfold writeCell at h
  cases hrow : pixels[r]? with
  | none => rw [hrow] at h; simp at h
  | some row =>
    rw [hrow] at h
    simp only at h
    by_cases hc : 0 ≤ i ∧ i.toNat < row.length
    · rw [if_pos hc] at h
      cases h
      have hrl : r < pixels.length := (List.getElem?_eq_some.1 hrow).1
      intro r1 c1
      by_cases hr1 : r1 = r
      · subst hr1
        by_cases hc1 : (c1 : Int) = i
        · have e : i.toNat = c1 := by omega
          simp [readCell, List.getElem?_set, hrl, hc1, e ▸ hc.2, e]
        · have e : i.toNat ≠ c1 := by omega
          simp [readCell, List.getElem?_set, hrl, hc1, e, hrow]
      · have : r ≠ r1 := fun e => hr1 e.symm
        simp [readCell, List.getElem?_set, hr1, this]
    · rw [if_neg hc] at h; simp at h

theorem writeCell_preserves {P : Nat → Prop} {pixels pixels1 : Grid} {r : Nat} {i : Int}
    {v : Nat} (h : writeCell pixels r i v = some pixels1) (hs : gridShape pixels)
    (hall : gridAll P pixels) (hv : P v) : gridShape pixels1 ∧ gridAll P pixels1 := by
  unfold writeCell at h
  cases hrow : pixels[r]? with
  | none => rw [hrow] at h; simp at h
  | some row =>
    rw [hrow] at h
    simp only at h
    by_cases hc : 0 ≤ i ∧ i.toNat < row.length
    · rw [if_pos hc] at h
      cases h
      have hmem : row ∈ pixels := List.mem_iff_getElem?.2 ⟨r, hrow⟩
      refine ⟨⟨by rw [List.length_set]; exact hs.1, ?_⟩, ?_⟩
      · intro row1 h1
        rcases List.mem_or_eq_of_mem_set h1 with h2 | h2
        · exact hs.2 _ h2
        · rw [h2, List.length_set]; exact hs.2 _ hmem
      · intro row1 h1 b hb
        rcases List.mem_or_eq_of_mem_set h1 with h2 | h2
        · exact hall _ h2 b hb
        · rw [h2] at hb
          rcases List.mem_or_eq_of_mem_set hb with h3 | h3
          · exact hall _ hmem b h3
          · rw [h3]; exact hv
    · rw [if_neg hc] at h; simp at h

theorem readCell_mem {pixels : Grid} {r c v : Nat} (h : readCell pixels r c = some v) :
    ∃ row ∈ pixels, v ∈ row := by
  unfold readCell at h
  cases hrow : pixels[r]? with
  | none => rw [hrow] at h; simp at h
  | some row =>
    rw [hrow] at h
    exact ⟨row, List.mem_iff_getElem?.2 ⟨r, hrow⟩, List.mem_iff_getElem?.2 ⟨c, h⟩⟩

theorem copyRow_preserves {P : Nat → Prop} {l : Symbol} (hl : gridAll P l.Pixels)
    (curcol : Int) (r : Nat) : ∀ (cs : List Nat) (pixels pixels1 : Grid),
      copyRow l curcol r cs pixels = some pixels1 → gridShape pixels → gridAll P pixels →
        gridShape pixels1 ∧ gridAll P pixels1 := by
  intro cs
  induction cs with
  | nil =>
    intro pixels pixels1 h hs hall
    simp [copyRow] at h
    subst h; exact ⟨hs, hall⟩
  | cons c cs ih =>
    intro pixels pixels1 h hs hall
    unfold copyRow at h
    by_cases hw : (c : Int) < l.Width
    · rw [if_pos hw] at h
      cases hv : readCell l.Pixels r c with
      | none => rw [hv] at h; simp at h
      | some v =>
        rw [hv] at h
        simp only at h
        cases hwr : writeCell pixels r ((c : Int) + curcol) v with
        | none => rw [hwr] at h; simp at h
        | some p1 =>
          rw [hwr] at h
          simp only at h
          obtain ⟨row, hrow, hmem⟩ := readCell_mem hv
          obtain ⟨hs1, hall1⟩ := writeCell_preserves hwr hs hall (hl row hrow v hmem)
          exact ih p1 pixels1 h hs1 hall1
    · rw [if_neg hw] at h
      cases h; exact ⟨hs, hall⟩

theorem copySymbol_preserves {P : Nat → Prop} {l : Symbol} (hl : gridAll P l.Pixels)
    (curcol : Int) : ∀ (rs : List Nat) (pixels pixels1 : Grid),
      copySymbol l curcol rs pixels = some pixels1 → gridShape pixels → gridAll P pixels →
        gridShape pixels1 ∧ gridAll P pixels1 := by
  intro rs
  induction rs with
  | nil =>
    intro pixels pixels1 h hs hall
    simp [copySymbol] at h
    subst h; exact ⟨hs, hall⟩
  | cons r rs ih =>
    intro pixels pixels1 h hs hall
    unfold copySymbol at h
    cases hcr : copyRow l curcol r (List.range (52 - curcol).toNat) pixels with
    | none => rw [hcr] at h; simp at h
    | some p1 =>
      rw [hcr] at h
      simp only at h
      obtain ⟨hs1, hall1⟩ := copyRow_preserves hl curcol r _ pixels p1 hcr hs hall
      exact ih p1 pixels1 h hs1 hall1

/-- Every state of the rendering loop keeps the buffer at 7 rows of 52 cells, and
keeps a property of the cells that holds of the glyph pixels. -/
theorem renderTrace_preserves {P : Nat → Prop} : ∀ (symbols : List Symbol) (st : Layout),
    (∀ s ∈ symbols, gridAll P s.Pixels) → gridShape st.pixels → gridAll P st.pixels →
      ∀ s ∈ renderTrace symbols st, gridShape s.pixels ∧ gridAll P s.pixels := by
  intro symbols
  induction symbols with
  | nil =>
    intro st _ hs hall s hmem
    simp [renderTrace] at hmem
    subst hmem; exact ⟨hs, hall⟩
  | cons l ls ih =>
    intro st hsym hs hall s hmem
    unfold renderTrace at hmem
    by_cases hfit : st.curcol + l.Width < 52
    · rw [if_pos hfit] at hmem
      cases hcp : copySymbol l st.curcol (List.range 7) st.pixels with
      | none =>
        rw [hcp] at hmem
        simp at hmem
        subst hmem; exact ⟨hs, hall⟩
      | some p1 =>
        rw [hcp] at hmem
        simp only [List.mem_cons] at hmem
        rcases hmem with h | h
        · subst h; exact ⟨hs, hall⟩
        · obtain ⟨hs1, hall1⟩ := copySymbol_preserves (hsym l (List.mem_cons_self _ _))
            st.curcol _ st.pixels p1 hcp hs hall
          exact ih _ (fun x hx => hsym x (List.mem_cons_of_mem _ hx)) hs1 hall1 s h
    · rw [if_neg hfit] at hmem
      simp at hmem
      subst hmem; exact ⟨hs, hall⟩

theorem mem_renderTrace_of_some {symbols : List Symbol} {st st1 : Layout}
    (h : renderSymbols symbols st = some st1) : st1 ∈ renderTrace symbols st := by
  have hlast := renderTrace_getLast symbols st st1 h
  rw [List.getLast?_eq_getElem?] at hlast
  exact List.mem_iff_getElem?.2 ⟨_, hlast⟩

theorem gridAll_emptyGrid {P : Nat → Prop} (h0 : P 0) : gridAll P emptyGrid := by
  intro row hrow b hb
  rw [emptyGrid] at hrow
  rw [(List.mem_replicate.1 hrow).2] at hb
  rw [(List.mem_replicate.1 hb).2]; exact h0

theorem gridAll_readCell {P : Nat → Prop} {pixels : Grid} (hall : gridAll P pixels)
    {r c b : Nat} (h : readCell pixels r c = some b) : P b := by
  obtain ⟨row, hrow, hmem⟩ := readCell_mem h
  exact hall row hrow b hmem

theorem logCell_eq (PixelRune : Nat → Option Char) {pixels : Grid} (hs : gridShape pixels)
    {r c : Nat} (hr : r < 7) (hc : c < 52) (log : List Diagnostic) :
    ∃ b, readCell pixels r c = some b ∧
      logCell PixelRune pixels r c log
        = some (if (PixelRune b).isSome then log else log ++ [Diagnostic.invalidPixel b]) := by
  obtain ⟨row, hrow, hlen⟩ := gridShape_row hs hr
  have hlt : c < row.length := by omega
  have hrl : r < row.length := by omega
  refine ⟨row[c], by simp [readCell, hrow, List.getElem?_eq_getElem hlt], ?_⟩
  unfold logCell
  rw [hrow]
  simp only [hrl, if_true, List.getElem?_eq_getElem hlt]
  cases PixelRune row[c] <;> simp

/-- On a buffer of 7 rows of 52 cells `printHistogram` never logs an unallocated
index, and logs an invalid value only for a level that is not in the table. -/
theorem histogramLog_spec (PixelRune : Nat → Option Char) {pixels : Grid}
    (hs : gridShape pixels) :
    ∃ log, histogramLog PixelRune pixels = some log ∧
      ∀ d ∈ log, ∃ r c b, r < 7 ∧ c < 52 ∧ readCell pixels r c = some b ∧
        PixelRune b = none ∧ d = Diagnostic.invalidPixel b := by
  obtain ⟨log, hlog, hinv⟩ := forRange_invariant
    (fun r log => forRange (logCell PixelRune pixels r) (List.range 52) log)
    (fun _ log => ∀ d ∈ log, ∃ r c b, r < 7 ∧ c < 52 ∧ readCell pixels r c = some b ∧
        PixelRune b = none ∧ d = Diagnostic.invalidPixel b) 7 0 []
    (by intro d hd; simp at hd)
    (by
      intro r log0 _ hr h0
      obtain ⟨log1, hlog1, hinv1⟩ := forRange_invariant (logCell PixelRune pixels r)
        (fun _ log => ∀ d ∈ log, ∃ r c b, r < 7 ∧ c < 52 ∧ readCell pixels r c = some b ∧
          PixelRune b = none ∧ d = Diagnostic.invalidPixel b) 52 0 log0 h0
        (by
          intro c log2 _ hc h2
          obtain ⟨b, hb, hcell⟩ := logCell_eq PixelRune hs (r := r) (c := c) (by omega)
            (by omega) log2
          refine ⟨_, hcell, ?_⟩
          cases hpr : PixelRune b with
          | some x => simpa [hpr] using h2
          | none =>
            simp only [hpr, Option.isSome_none, Bool.false_eq_true, if_false]
            intro d hd
            rcases List.mem_append.1 hd with h | h
            · exact h2 d h
            · simp at h
              exact ⟨r, c, b, by omega, by omega, hb, hpr, h⟩)
      rw [List.range_eq_range']
      exact ⟨log1, hlog1, hinv1⟩)
  refine ⟨log, ?_, hinv⟩
  unfold histogramLog
  rw [List.range_eq_range' 7]
  exact hlog

theorem readCell_some_bounds {pixels : Grid} (hs : gridShape pixels) {r c b : Nat}
    (h : readCell pixels r c = some b) : r < 7 ∧ c < 52 := by
  unfold readCell at h
  cases hrow : pixels[r]? with
  | none => rw [hrow] at h; simp at h
  | some row =>
    rw [hrow] at h
    have h1 := (List.getElem?_eq_some.1 hrow).1
    have h2 := (List.getElem?_eq_some.1 h).1
    have h3 := hs.2 row (List.mem_iff_getElem?.2 ⟨r, hrow⟩)
    have h4 := hs.1
    omega

/-- C12. The buffer has 7 rows of 52 cells before compositing, at every state of
the rendering loop and after compositing, for every glyph sequence; if 0 and every
pixel value of every glyph are keys of `PixelRune`, every cell of the composited grid
is a key of `PixelRune` and `printHistogram` of that grid logs no invalid value (and
no unallocated index); for glyphs of at least 7 rows, each at least `Width()` long,
the compositor returns. -/
theorem grid_invariant (PixelRune : Nat → Option Char) (symbols : List Symbol) :
    gridShape emptyGrid ∧
    (∀ s ∈ renderTrace symbols ⟨emptyGrid, 1, 0⟩, gridShape s.pixels) ∧
    (∀ st, composite symbols = some st → gridShape st.pixels) ∧
    ((PixelRune 0).isSome →
      (∀ s ∈ symbols, ∀ row ∈ s.Pixels, ∀ b ∈ row, (PixelRune b).isSome) →
      ∀ st, composite symbols = some st →
        (∀ r c : Nat, r < 7 → c < 52 →
          ∃ b, readCell st.pixels r c = some b ∧ (PixelRune b).isSome) ∧
        histogramLog PixelRune st.pixels = some [] ∧
        ∃ text, printHistogram PixelRune st.pixels = some text) ∧
    ((∀ s ∈ symbols, s.indexSafe) → ∃ st, composite symbols = some st) := by
  have hshape : ∀ s ∈ renderTrace symbols ⟨emptyGrid, 1, 0⟩, gridShape s.pixels := by
    intro s hs
    exact (renderTrace_preserves (P := fun _ => True) symbols ⟨emptyGrid, 1, 0⟩
      (fun _ _ _ _ _ _ => trivial) gridShape_emptyGrid (fun _ _ _ _ => trivial) s hs).1
  refine ⟨gridShape_emptyGrid, hshape, ?_, ?_, ?_⟩
  · intro st hst
    exact hshape st (mem_renderTrace_of_some hst)
  · intro h0 hsym st hst
    have hmem := mem_renderTrace_of_some hst
    obtain ⟨hs, hall⟩ := renderTrace_preserves (P := fun b => (PixelRune b).isSome) symbols
      ⟨emptyGrid, 1, 0⟩ hsym gridShape_emptyGrid (gridAll_emptyGrid h0) st hmem
    refine ⟨?_, ?_, _, printHistogram_eq PixelRune hs⟩
    · intro r c hr hc
      obtain ⟨b, hb⟩ := readCell_isSome hs hr hc
      exact ⟨b, hb, gridAll_readCell hall hb⟩
    · obtain ⟨log, hlog, hent⟩ := histogramLog_spec PixelRune hs
      have : log = [] := by
        apply List.eq_nil_iff_forall_not_mem.2
        intro d hd
        obtain ⟨r, c, b, _, _, hb, hnone, _⟩ := hent d hd
        have := gridAll_readCell hall hb
        rw [hnone] at this
        simp at this
      rw [hlog, this]
  · intro hsafe
    obtain ⟨st, hst, _⟩ :=
      renderSymbols_spec symbols ⟨emptyGrid, 1, 0⟩ hsafe gridShape_emptyGrid (by decide)
    exact ⟨st, hst⟩

/-- The grid of the scenario "HI" has 7 rows of 52 cells and, with the levels 0 to 4
in the table, its preview logs nothing. -/
theorem grid_invariant_witness :
    (sampleRune 0).isSome ∧
    (∀ s ∈ [glyphH, glyphI], ∀ row ∈ s.Pixels, ∀ b ∈ row, (sampleRune b).isSome) ∧
    (∀ s ∈ [glyphH, glyphI], s.indexSafe) ∧
    ∃ st, composite [glyphH, glyphI] = some st ∧ gridShape st.pixels ∧
      histogramLog sampleRune st.pixels = some [] :=
  ⟨by decide, by decide, by decide,
    ((grid_invariant sampleRune [glyphH, glyphI]).2.2.2.2 (by decide)).imp fun st hst =>
      ⟨hst, (grid_invariant sampleRune [glyphH, glyphI]).2.2.1 st hst,
        ((grid_invariant sampleRune [glyphH, glyphI]).2.2.2.1 (by decide) (by decide)
          st hst).2.1⟩⟩

theorem copyRow_outside (l : Symbol) (curcol : Int) (r : Nat) :
    ∀ (cs : List Nat) (pixels pixels1 : Grid),
      copyRow l curcol r cs pixels = some pixels1 →
        ∀ r1 c1 : Nat, ((c1 : Int) < curcol ∨ curcol + l.Width ≤ c1) →
          readCell pixels1 r1 c1 = readCell pixels r1 c1 := by
  intro cs
  induction cs with
  | nil =>
    intro pixels pixels1 h r1 c1 _
    simp [copyRow] at h
    subst h; rfl
  | cons c cs ih =>
    intro pixels pixels1 h r1 c1 hout
    unfold copyRow at h
    by_cases hw : (c : Int) < l.Width
    · rw [if_pos hw] at h
      cases hv : readCell l.Pixels r c with
      | none => rw [hv] at h; simp at h
      | some v =>
        rw [hv] at h
        simp only at h
        cases hwr : writeCell pixels r ((c : Int) + curcol) v with
        | none => rw [hwr] at h; simp at h
        | some p1 =>
          rw [hwr] at h
          simp only at h
          rw [ih p1 pixels1 h r1 c1 hout, writeCell_read hwr, if_neg (by omega)]
    · rw [if_neg hw] at h
      cases h; rfl

theorem copySymbol_outside (l : Symbol) (curcol : Int) :
    ∀ (rs : List Nat) (pixels pixels1 : Grid),
      copySymbol l curcol rs pixels = some pixels1 →
        ∀ r1 c1 : Nat, ((c1 : Int) < curcol ∨ curcol + l.Width ≤ c1) →
          readCell pixels1 r1 c1 = readCell pixels r1 c1 := by
  intro rs
  induction rs with
  | nil =>
    intro pixels pixels1 h r1 c1 _
    simp [copySymbol] at h
    subst h; rfl
  | cons r rs ih =>
    intro pixels pixels1 h r1 c1 hout
    unfold copySymbol at h
    cases hcr : copyRow l curcol r (List.range (52 - curcol).toNat) pixels with
    | none => rw [hcr] at h; simp at h
    | some p1 =>
      rw [hcr] at h
      simp only at h
      rw [ih p1 pixels1 h r1 c1 hout, copyRow_outside l curcol r _ pixels p1 hcr r1 c1 hout]

/-- With non-negative widths the rendering loop never changes a cell left of its
starting offset nor a cell of column 51 or beyond. -/
theorem renderSymbols_outside : ∀ (symbols : List Symbol) (st st1 : Layout),
    (∀ s ∈ symbols, 0 ≤ s.Width) → renderSymbols symbols st = some st1 →
      ∀ r1 c1 : Nat, ((c1 : Int) < st.curcol ∨ 51 ≤ c1) →
        readCell st1.pixels r1 c1 = readCell st.pixels r1 c1 := by
  intro symbols
  induction symbols with
  | nil =>
    intro st st1 _ h r1 c1 _
    simp [renderSymbols] at h
    subst h; rfl
  | cons l ls ih =>
    intro st st1 hw h r1 c1 hout
    have hl := hw l (List.mem_cons_self _ _)
    unfold renderSymbols at h
    by_cases hfit : st.curcol + l.Width < 52
    · rw [if_pos hfit] at h
      cases hcp : copySymbol l st.curcol (List.range 7) st.pixels with
      | none => rw [hcp] at h; simp at h
      | some p1 =>
        rw [hcp] at h
        simp only at h
        rw [ih _ st1 (fun s hs => hw s (List.mem_cons_of_mem _ hs)) h r1 c1
            (by simp only; omega),
          copySymbol_outside l st.curcol _ st.pixels p1 hcp r1 c1 (by omega)]
    · rw [if_neg hfit] at h
      cases h; rfl

theorem readCell_emptyGrid_eq_zero {r c b : Nat} (h : readCell emptyGrid r c = some b) :
    b = 0 :=
  gridAll_readCell (P := fun x => x = 0) (gridAll_emptyGrid rfl) h

theorem mem_commitDates_iff (d : Time) : ∀ l : List Piece,
    d ∈ commitDates l ↔ Piece.commit d ∈ l := by
  intro l
  induction l with
  | nil => simp [commitDates]
  | cons x xs ih => cases x <;> simp [commitDates, ih]

theorem composite_margins {symbols : List Symbol} (hw : ∀ s ∈ symbols, 0 ≤ s.Width)
    {st : Layout} (hst : composite symbols = some st) :
    (∀ r, r < 7 → readCell st.pixels r 0 = some 0 ∧ readCell st.pixels r 51 = some 0) ∧
    (∀ r c b : Nat, readCell st.pixels r c = some b → b ≠ 0 → r < 7 ∧ 1 ≤ c ∧ c ≤ 50) := by
  have hout := renderSymbols_outside symbols ⟨emptyGrid, 1, 0⟩ st hw hst
  simp only at hout
  have hshape : gridShape st.pixels :=
    (renderTrace_preserves (P := fun _ => True) symbols ⟨emptyGrid, 1, 0⟩
      (fun _ _ _ _ _ _ => trivial) gridShape_emptyGrid (fun _ _ _ _ => trivial) st
      (mem_renderTrace_of_some hst)).1
  refine ⟨?_, ?_⟩
  · intro r hr
    rw [hout r 0 (by omega), hout r 51 (by omega)]
    exact ⟨readCell_emptyGrid hr (by decide), readCell_emptyGrid hr (by decide)⟩
  · intro r c b hb hne
    have hbd := readCell_some_bounds hshape hb
    refine ⟨hbd.1, ?_⟩
    by_contra hnot
    have hc : (c : Int) < 1 ∨ 51 ≤ c := by omega
    rw [hout r c hc] at hb
    exact hne (readCell_emptyGrid_eq_zero hb)

theorem cellCount_ne_zero {pixels : Grid} {multi : Int} {c r : Nat}
    (h : cellCount pixels multi c r ≠ 0) :
    ∃ p, readCell pixels r c = some p ∧ p ≠ 0 := by
  unfold cellCount at h
  cases hp : readCell pixels r c with
  | none => rw [hp] at h; simp at h
  | some p =>
    refine ⟨p, rfl, ?_⟩
    intro h0
    subst h0
    rw [hp] at h
    simp [wrapInt_zero] at h

/-- C13. For glyphs whose `Width()` is the length of one of their rows (hence
non-negative) every cell of column 0 and of column 51 of the composited grid is 0 and a populated cell lies in columns 1..50 (rows 0..6); hence
with dry-run off no commit statement is dated in the first 7 or in the last 7 days of
the 364-day span that starts 7 days after the start date given to `buildScript`. -/
theorem margins (symbols : List Symbol) (hrow : ∀ s ∈ symbols, s.rowWidth) :
    (∀ st, composite symbols = some st →
      (∀ r, r < 7 → readCell st.pixels r 0 = some 0 ∧ readCell st.pixels r 51 = some 0) ∧
      (∀ r c b : Nat, readCell st.pixels r c = some b → b ≠ 0 → r < 7 ∧ 1 ≤ c ∧ c ≤ 50)) ∧
    ((∀ s ∈ symbols, s.indexSafe) →
      ∀ (PixelRune : Nat → Option Char) (usessh : Bool) (user repo text : String)
        (multi : Int) (startdate : Time),
        ∃ st out, composite symbols = some st ∧
          buildScriptBuffer PixelRune false usessh user repo text multi startdate symbols
            = some out ∧
          ∀ d ∈ commitDates out,
            ((startdate.Add ((Hour * 24) * 7)).Add (7 * (Hour * 24))).nsec ≤ d.nsec ∧
            d.nsec < ((startdate.Add ((Hour * 24) * 7)).Add (357 * (Hour * 24))).nsec) := by
  have hw := allWidthNonneg hrow
  refine ⟨fun st hst => composite_margins hw hst, ?_⟩
  intro hsafe PixelRune usessh user repo text multi startdate
  obtain ⟨st, hst, _, _, _, hbuf⟩ :=
    buildScriptBuffer_spec PixelRune false usessh user repo text multi startdate symbols hsafe
  refine ⟨st, _, hst, hbuf, ?_⟩
  simp only [Bool.false_eq_true, if_false]
  rw [commitDates_output _ _ _ (by intro d h; cases h) (by intro d h; cases h)
    (by intro d h; cases h)]
  intro d hd
  obtain ⟨c, r, hc, hr, rfl⟩ := mem_commitDates_scheduleCommits st.pixels multi _ 52 d hd
  have hmem := (mem_commitDates_iff _ _).1 hd
  have hcnt := count_scheduleCommits st.pixels multi (startdate.Add ((Hour * 24) * 7))
    (c := c) hr 52
  rw [if_pos hc] at hcnt
  have hne : cellCount st.pixels multi c r ≠ 0 := by
    rw [← hcnt]
    exact fun h0 => (List.count_eq_zero.1 h0) hmem
  obtain ⟨p, hp, hp0⟩ := cellCount_ne_zero hne
  obtain ⟨_, h1, h50⟩ := (composite_margins hw hst).2 r c p hp hp0
  rw [cellDate_nsec]
  simp only [Time.Add, Hour]
  omega

/-- In the scenario "HI" columns 0 and 51 stay at 0 and every commit is dated from
day 14 to day 363 after the start date 0. -/
theorem margins_witness :
    (∀ s ∈ [glyphH, glyphI], s.rowWidth) ∧ (∀ s ∈ [glyphH, glyphI], s.indexSafe) ∧
    ∃ st out, composite [glyphH, glyphI] = some st ∧
      buildScriptBuffer sampleRune false false "u" "r" "HI" 2 ⟨0⟩ [glyphH, glyphI]
        = some out ∧
      ∀ d ∈ commitDates out,
        (((⟨0⟩ : Time).Add ((Hour * 24) * 7)).Add (7 * (Hour * 24))).nsec ≤ d.nsec ∧
        d.nsec < (((⟨0⟩ : Time).Add ((Hour * 24) * 7)).Add (357 * (Hour * 24))).nsec :=
  ⟨by decide, by decide,
    (margins [glyphH, glyphI] (by decide)).2 (by decide) sampleRune false "u" "r" "HI" 2 ⟨0⟩⟩

theorem scheduleCommits_zero (pixels : Grid) (d0 : Time) :
    ∀ n, scheduleCommits pixels 0 d0 n = [] := by
  have hcell : ∀ c r, cellCommits pixels 0 d0 c r = [] := by
    intro c r
    unfold cellCommits cellCount
    cases readCell pixels r c <;> simp [wrapInt_zero]
  have hrow : ∀ c n, rowsCommits pixels 0 d0 c n = [] := by
    intro c n
    induction n with
    | zero => simp [rowsCommits]
    | succ n ih => rw [rowsCommits_succ, ih, hcell]; rfl
  intro n
  induction n with
  | zero => simp [scheduleCommits]
  | succ n ih => rw [scheduleCommits_succ, ih, hrow]; rfl

/-- C15. For a highest count `h` with `0 ≤ h` (an `int`), the multiplier is
`2 * floor(h / 3)`: even, non-negative, at most `2*h/3`, and 0 for `h` in
`{0, 1, 2}`; with that multiplier 0 `buildScript` writes no commit statement, whatever
the text, the glyphs and the other arguments. -/
theorem multiplier_arithmetic (h : Int) (h0 : 0 ≤ h) (hmax : h ≤ 9223372036854775807) :
    multiplier h = h / 3 * 2 ∧ multiplier h = 2 * (h / 3) ∧ multiplier h % 2 = 0 ∧
    0 ≤ multiplier h ∧ 3 * multiplier h ≤ 2 * h ∧ multiplier h ≤ 2 * h / 3 ∧
    (h ≤ 2 → multiplier h = 0) ∧
    (h ≤ 2 → ∀ (PixelRune : Nat → Option Char) (usessh : Bool) (user repo text : String)
      (startdate : Time) (symbols : List Symbol), (∀ s ∈ symbols, s.indexSafe) →
        ∃ preview, buildScriptBuffer PixelRune false usessh user repo text (multiplier h)
            startdate symbols
          = some [Piece.header repo, Piece.preview preview, Piece.footer usessh user repo]) := by
  have hm : multiplier h = 2 * (h / 3) := by
    unfold multiplier
    rw [Int.tdiv_eq_ediv h0 (by decide)]
    unfold wrapInt
    omega
  have hzero : h ≤ 2 → multiplier h = 0 := by
    intro h2; rw [hm]; omega
  refine ⟨by rw [hm]; omega, hm, by rw [hm]; omega, by rw [hm]; omega, by rw [hm]; omega,
    by rw [hm]; omega, hzero, ?_⟩
  intro h2 PixelRune usessh user repo text startdate symbols hsafe
  obtain ⟨st, _, _, _, _, hbuf⟩ :=
    buildScriptBuffer_spec PixelRune false usessh user repo text (multiplier h) startdate
      symbols hsafe
  refine ⟨previewText PixelRune st.pixels, ?_⟩
  rw [hbuf, hzero h2, scheduleCommits_zero]
  rfl

/-- The highest count 2 gives the multiplier 0 and a script without commit statement. -/
theorem multiplier_arithmetic_witness :
    (0 : Int) ≤ 2 ∧ (2 : Int) ≤ 9223372036854775807 ∧ multiplier 2 = 0 ∧
    ∃ preview, buildScriptBuffer sampleRune false false "u" "r" "HI" (multiplier 2) ⟨0⟩
        [glyphH, glyphI]
      = some [Piece.header "r", Piece.preview preview, Piece.footer false "u" "r"] :=
  ⟨by decide, by decide,
    (multiplier_arithmetic 2 (by decide) (by decide)).2.2.2.2.2.2.1 (by decide),
    (multiplier_arithmetic 2 (by decide) (by decide)).2.2.2.2.2.2.2 (by decide) sampleRune
      false "u" "r" "HI" ⟨0⟩ [glyphH, glyphI] (by decide)⟩

/-! ## Index safety -/

theorem writeCell_some_bounds {pixels pixels1 : Grid} (hs : gridShape pixels) {r : Nat}
    {i : Int} {v : Nat} (h : writeCell pixels r i v = some pixels1) :
    r < 7 ∧ 0 ≤ i ∧ i < 52 := by
  unfold writeCell at h
  cases hrow : pixels[r]? with
  | none => rw [hrow] at h; simp at h
  | some row =>
    rw [hrow] at h
    simp only at h
    by_cases hc : 0 ≤ i ∧ i.toNat < row.length
    · have h1 := (List.getElem?_eq_some.1 hrow).1
      have h3 := hs.2 row (List.mem_iff_getElem?.2 ⟨r, hrow⟩)
      have h4 := hs.1
      omega
    · rw [if_neg hc] at h; simp at h

theorem copyRow_of_inBounds (l : Symbol) (curcol : Int) (r : Nat) :
    ∀ (cs : List Nat) (pixels : Grid), gridShape pixels →
      (∀ a ∈ copyRowAccesses l curcol r cs, a.inBounds) →
        ∃ pixels1, copyRow l curcol r cs pixels = some pixels1 ∧ gridShape pixels1 := by
  intro cs
  induction cs with
  | nil => intro pixels hs _; exact ⟨pixels, rfl, hs⟩
  | cons c cs ih =>
    intro pixels hs h
    unfold copyRowAccesses at h
    by_cases hw : (c : Int) < l.Width
    · rw [if_pos hw] at h
      have hread : (readCell l.Pixels r c).isSome = true :=
        h (Access.glyphRead l r c) (List.mem_cons_self _ _)
      have hwrite : r < 7 ∧ 0 ≤ (c : Int) + curcol ∧ (c : Int) + curcol < 52 :=
        h (Access.gridWrite r ((c : Int) + curcol))
          (List.mem_cons_of_mem _ (List.mem_cons_self _ _))
      obtain ⟨v, hv⟩ := Option.isSome_iff_exists.1 hread
      obtain ⟨p1, hp1, hs1, _⟩ := writeCell_spec hs hwrite.1 hwrite.2.1 hwrite.2.2 v
      obtain ⟨p2, hp2, hs2⟩ := ih p1 hs1
        (fun a ha => h a (List.mem_cons_of_mem _ (List.mem_cons_of_mem _ ha)))
      exact ⟨p2, by simp [copyRow, hw, hv, hp1, hp2], hs2⟩
    · exact ⟨pixels, by simp [copyRow, hw], hs⟩

theorem copyRow_inBounds (l : Symbol) (curcol : Int) (r : Nat) :
    ∀ (cs : List Nat) (pixels pixels1 : Grid), gridShape pixels →
      copyRow l curcol r cs pixels = some pixels1 →
        ∀ a ∈ copyRowAccesses l curcol r cs, a.inBounds := by
  intro cs
  induction cs with
  | nil => intro pixels pixels1 _ _ a ha; simp [copyRowAccesses] at ha
  | cons c cs ih =>
    intro pixels pixels1 hs h a ha
    unfold copyRow at h
    unfold copyRowAccesses at ha
    by_cases hw : (c : Int) < l.Width
    · rw [if_pos hw] at h ha
      cases hv : readCell l.Pixels r c with
      | none => rw [hv] at h; simp at h
      | some v =>
        rw [hv] at h
        simp only at h
        cases hwr : writeCell pixels r ((c : Int) + curcol) v with
        | none => rw [hwr] at h; simp at h
        | some p1 =>
          rw [hwr] at h
          simp only at h
          have hs1 := (writeCell_preserves (P := fun _ => True) hwr hs
            (fun _ _ _ _ => trivial) trivial).1
          rcases List.mem_cons.1 ha with e | ha
          · subst e
            show (readCell l.Pixels r c).isSome = true
            rw [hv]; rfl
          · rcases List.mem_cons.1 ha with e | ha
            · subst e
              exact writeCell_some_bounds hs hwr
            · exact ih p1 pixels1 hs1 h a ha
    · rw [if_neg hw] at ha; simp at ha

theorem copyRow_shape (l : Symbol) (curcol : Int) (r : Nat) (cs : List Nat)
    {pixels pixels1 : Grid} (hs : gridShape pixels)
    (h : copyRow l curcol r cs pixels = some pixels1) : gridShape pixels1 :=
  (copyRow_preserves (P := fun _ => True) (fun _ _ _ _ => trivial) curcol r cs pixels
    pixels1 h hs (fun _ _ _ _ => trivial)).1

theorem copySymbol_of_inBounds (l : Symbol) (curcol : Int) :
    ∀ (rs : List Nat) (pixels : Grid), gridShape pixels →
      (∀ a ∈ copySymbolAccesses l curcol rs, a.inBounds) →
        ∃ pixels1, copySymbol l curcol rs pixels = some pixels1 ∧ gridShape pixels1 := by
  intro rs
  induction rs with
  | nil => intro pixels hs _; exact ⟨pixels, rfl, hs⟩
  | cons r rs ih =>
    intro pixels hs h
    unfold copySymbolAccesses at h
    obtain ⟨p1, hp1, hs1⟩ := copyRow_of_inBounds l curcol r _ pixels hs
      (fun a ha => h a (List.mem_append_left _ ha))
    obtain ⟨p2, hp2, hs2⟩ := ih p1 hs1 (fun a ha => h a (List.mem_append_right _ ha))
    exact ⟨p2, by simp [copySymbol, hp1, hp2], hs2⟩

theorem copySymbol_inBounds (l : Symbol) (curcol : Int) :
    ∀ (rs : List Nat) (pixels pixels1 : Grid), gridShape pixels →
      copySymbol l curcol rs pixels = some pixels1 →
        ∀ a ∈ copySymbolAccesses l curcol rs, a.inBounds := by
  intro rs
  induction rs with
  | nil => intro pixels pixels1 _ _ a ha; simp [copySymbolAccesses] at ha
  | cons r rs ih =>
    intro pixels pixels1 hs h a ha
    unfold copySymbol at h
    unfold copySymbolAccesses at ha
    cases hcr : copyRow l curcol r (List.range (52 - curcol).toNat) pixels with
    | none => rw [hcr] at h; simp at h
    | some p1 =>
      rw [hcr] at h
      simp only at h
      rcases List.mem_append.1 ha with ha | ha
      · exact copyRow_inBounds l curcol r _ pixels p1 hs hcr a ha
      · exact ih p1 pixels1 (copyRow_shape l curcol r _ hs hcr) h a ha

theorem copySymbol_shape (l : Symbol) (curcol : Int) (rs : List Nat)
    {pixels pixels1 : Grid} (hs : gridShape pixels)
    (h : copySymbol l curcol rs pixels = some pixels1) : gridShape pixels1 :=
  (copySymbol_preserves (P := fun _ => True) (fun _ _ _ _ => trivial) curcol rs pixels
    pixels1 h hs (fun _ _ _ _ => trivial)).1

theorem renderSymbols_of_inBounds : ∀ (symbols : List Symbol) (st : Layout),
    gridShape st.pixels → (∀ a ∈ renderAccesses symbols st.curcol, a.inBounds) →
      ∃ st1, renderSymbols symbols st = some st1 := by
  intro symbols
  induction symbols with
  | nil => intro st _ _; exact ⟨st, rfl⟩
  | cons l ls ih =>
    intro st hs h
    unfold renderAccesses at h
    by_cases hfit : st.curcol + l.Width < 52
    · rw [if_pos hfit] at h
      obtain ⟨p1, hp1, hs1⟩ := copySymbol_of_inBounds l st.curcol _ st.pixels hs
        (fun a ha => h a (List.mem_append_left _ ha))
      obtain ⟨st1, hst1⟩ := ih ⟨p1, st.curcol + l.Width, st.placed + 1⟩ hs1
        (fun a ha => h a (List.mem_append_right _ ha))
      exact ⟨st1, by simp [renderSymbols, hfit, hp1, hst1]⟩
    · exact ⟨st, by simp [renderSymbols, hfit]⟩

theorem renderSymbols_inBounds : ∀ (symbols : List Symbol) (st st1 : Layout),
    gridShape st.pixels → renderSymbols symbols st = some st1 →
      ∀ a ∈ renderAccesses symbols st.curcol, a.inBounds := by
  intro symbols
  induction symbols with
  | nil => intro st st1 _ _ a ha; simp [renderAccesses] at ha
  | cons l ls ih =>
    intro st st1 hs h a ha
    unfold renderSymbols at h
    unfold renderAccesses at ha
    by_cases hfit : st.curcol + l.Width < 52
    · rw [if_pos hfit] at h ha
      cases hcp : copySymbol l st.curcol (List.range 7) st.pixels with
      | none => rw [hcp] at h; simp at h
      | some p1 =>
        rw [hcp] at h
        simp only at h
        rcases List.mem_append.1 ha with ha | ha
        · exact copySymbol_inBounds l st.curcol _ st.pixels p1 hs hcp a ha
        · exact ih ⟨p1, st.curcol + l.Width, st.placed + 1⟩ st1
            (copySymbol_shape l st.curcol _ hs hcp) h a ha
    · rw [if_neg hfit] at ha; simp at ha

/-- The compositor returns exactly when every index expression of the rendering loop
is in bounds. -/
theorem composite_isSome_iff (symbols : List Symbol) :
    (∃ st, composite symbols = some st) ↔ ∀ a ∈ renderAccesses symbols 1, a.inBounds :=
  ⟨fun ⟨st, hst⟩ => renderSymbols_inBounds symbols ⟨emptyGrid, 1, 0⟩ st gridShape_emptyGrid hst,
    fun h => renderSymbols_of_inBounds symbols ⟨emptyGrid, 1, 0⟩ gridShape_emptyGrid h⟩

theorem mem_copyRowAccesses (l : Symbol) (curcol : Int) (r : Nat) :
    ∀ (cs : List Nat) (a : Access), a ∈ copyRowAccesses l curcol r cs →
      ∃ c ∈ cs, (c : Int) < l.Width ∧
        (a = Access.glyphRead l r c ∨ a = Access.gridWrite r ((c : Int) + curcol)) := by
  intro cs
  induction cs with
  | nil => intro a h; simp [copyRowAccesses] at h
  | cons c cs ih =>
    intro a h
    unfold copyRowAccesses at h
    by_cases hw : (c : Int) < l.Width
    · rw [if_pos hw] at h
      simp only [List.mem_cons] at h
      rcases h with h | h | h
      · exact ⟨c, List.mem_cons_self _ _, hw, Or.inl h⟩
      · exact ⟨c, List.mem_cons_self _ _, hw, Or.inr h⟩
      · obtain ⟨c1, hc1, h1, h2⟩ := ih a h
        exact ⟨c1, List.mem_cons_of_mem _ hc1, h1, h2⟩
    · rw [if_neg hw] at h; simp at h

theorem mem_copySymbolAccesses (l : Symbol) (curcol : Int) :
    ∀ (rs : List Nat) (a : Access), a ∈ copySymbolAccesses l curcol rs →
      ∃ r ∈ rs, ∃ c : Nat, (c : Int) < l.Width ∧
        (a = Access.glyphRead l r c ∨ a = Access.gridWrite r ((c : Int) + curcol)) := by
  intro rs
  induction rs with
  | nil => intro a h; simp [copySymbolAccesses] at h
  | cons r rs ih =>
    intro a h
    unfold copySymbolAccesses at h
    rcases List.mem_append.1 h with h | h
    · obtain ⟨c, _, h1, h2⟩ := mem_copyRowAccesses l curcol r _ a h
      exact ⟨r, List.mem_cons_self _ _, c, h1, h2⟩
    · obtain ⟨r1, hr1, c, h1, h2⟩ := ih a h
      exact ⟨r1, List.mem_cons_of_mem _ hr1, c, h1, h2⟩

/-- Where the rendering loop reads and writes: glyph cells at rows 0..6 and columns
below `Width()`, buffer cells at rows 0..6 and columns from the starting offset to
50. -/
theorem mem_renderAccesses : ∀ (symbols : List Symbol) (curcol : Int) (a : Access),
    (∀ s ∈ symbols, 0 ≤ s.Width) → a ∈ renderAccesses symbols curcol →
      ∃ l ∈ symbols, ∃ r c : Nat, r < 7 ∧ (c : Int) < l.Width ∧
        (a = Access.glyphRead l r c ∨
          ∃ i : Int, a = Access.gridWrite r i ∧ curcol ≤ i ∧ i ≤ 50) := by
  intro symbols
  induction symbols with
  | nil => intro curcol a _ h; simp [renderAccesses] at h
  | cons l ls ih =>
    intro curcol a hw h
    unfold renderAccesses at h
    by_cases hfit : curcol + l.Width < 52
    · rw [if_pos hfit] at h
      rcases List.mem_append.1 h with h | h
      · obtain ⟨r, hr, c, hc, h2⟩ := mem_copySymbolAccesses l curcol _ a h
        refine ⟨l, List.mem_cons_self _ _, r, c, List.mem_range.1 hr, hc, ?_⟩
        rcases h2 with h2 | h2
        · exact Or.inl h2
        · exact Or.inr ⟨_, h2, by omega, by omega⟩
      · obtain ⟨l1, hl1, r, c, hr, hc, h2⟩ :=
          ih (curcol + l.Width) a (fun s hs => hw s (List.mem_cons_of_mem _ hs)) h
        refine ⟨l1, List.mem_cons_of_mem _ hl1, r, c, hr, hc, ?_⟩
        rcases h2 with h2 | ⟨i, h2, h3, h4⟩
        · exact Or.inl h2
        · have := hw l (List.mem_cons_self _ _)
          exact Or.inr ⟨i, h2, by omega, h4⟩
    · rw [if_neg hfit] at h; simp at h

set_option maxRecDepth 1000000 in
/-- C14 fails on the code: the guard of `printHistogram` is `r < len(pixels[r])`, the
row index against the row length.  On 7 rows of 8 cells the guard holds at row 0
(`0 < 8`), so column 8 is read out of range and `printHistogram` panics instead of
writing `'!'`; on a grid whose row 6 has 6 cells the guard fails at row 6 (`6 < 6`), so
the allocated cell at row 6, column 0, of level 1 with symbol `'#'`, is shown as `'!'`
and logged as unallocated. -/
theorem printHistogram_guard_compares_row :
    (List.replicate 7 (List.replicate 8 0) : Grid).length = 7 ∧
    readCell (List.replicate 7 (List.replicate 8 0)) 0 8 = none ∧
    printHistogram sampleRune (List.replicate 7 (List.replicate 8 0)) = none ∧
    (List.replicate 6 (List.replicate 52 1) ++ [List.replicate 6 1] : Grid).length = 7 ∧
    readCell (List.replicate 6 (List.replicate 52 1) ++ [List.replicate 6 1]) 6 0 = some 1 ∧
    sampleRune 1 = some '#' ∧
    (printHistogram sampleRune
        (List.replicate 6 (List.replicate 52 1) ++ [List.replicate 6 1])).map
      (fun text => text.data[39 + 58 * 6 + 0]?) = some (some '!') ∧
    (histogramLog sampleRune
        (List.replicate 6 (List.replicate 52 1) ++ [List.replicate 6 1])).map
      (fun log => log[0]?) = some (some (Diagnostic.unallocated 6 0)) := by
  decide

/-- C16. For glyphs with `Width() ≥ 0`, at least 7 rows and every row at least
`Width()` long: the rendering loop reads glyph cells only at rows 0..6 and columns
below `Width()` and writes buffer cells only at rows 0..6 and columns 1..50, all of
them in bounds; the compositor returns a buffer of 7 rows of 52 cells in which every
cell at rows 0..6, columns 0..51 can be read; `printHistogram` returns and never logs
an unallocated index; the schedule walk returns and visits only columns 0..51 and
rows 0..6; `buildScript` returns for every multiplier, start date and flag. -/
theorem index_safety (symbols : List Symbol) (hsafe : ∀ s ∈ symbols, s.indexSafe) :
    (∀ l r c, Access.glyphRead l r c ∈ renderAccesses symbols 1 →
      l ∈ symbols ∧ r < 7 ∧ (c : Int) < l.Width ∧ (readCell l.Pixels r c).isSome = true) ∧
    (∀ r i, Access.gridWrite r i ∈ renderAccesses symbols 1 → r < 7 ∧ 1 ≤ i ∧ i ≤ 50) ∧
    (∀ a ∈ renderAccesses symbols 1, a.inBounds) ∧
    ∃ st, composite symbols = some st ∧ gridShape st.pixels ∧
      (∀ r c : Nat, r < 7 → c < 52 → (readCell st.pixels r c).isSome = true) ∧
      (∀ PixelRune : Nat → Option Char, ∃ text log,
        printHistogram PixelRune st.pixels = some text ∧
        histogramLog PixelRune st.pixels = some log ∧
        ∀ r c, Diagnostic.unallocated r c ∉ log) ∧
      (∀ (multi : Int) (s : Sched), ∃ s1 visits, schedule st.pixels multi s = some s1 ∧
        s1.visited = s.visited ++ visits ∧ ∀ v ∈ visits, v.1 < 52 ∧ v.2.1 < 7) ∧
      (∀ (PixelRune : Nat → Option Char) (dryrun usessh : Bool) (user repo text : String)
        (multi : Int) (startdate : Time), ∃ out,
          buildScriptBuffer PixelRune dryrun usessh user repo text multi startdate symbols
            = some out) := by
  have hw : ∀ s ∈ symbols, 0 ≤ s.Width := fun s hs => (hsafe s hs).1
  obtain ⟨st, hst, hsh, _⟩ :=
    renderSymbols_spec symbols ⟨emptyGrid, 1, 0⟩ hsafe gridShape_emptyGrid (by decide)
  have hst' : composite symbols = some st := hst
  refine ⟨?_, ?_, (composite_isSome_iff symbols).1 ⟨st, hst'⟩, st, hst', hsh, ?_, ?_, ?_, ?_⟩
  · intro l r c hmem
    obtain ⟨l1, hl1, r1, c1, hr1, hc1, h | ⟨i, h, _, _⟩⟩ :=
      mem_renderAccesses symbols 1 _ hw hmem
    · cases h
      exact ⟨hl1, hr1, hc1, Option.isSome_iff_exists.2 (indexSafe_read (hsafe _ hl1) hr1 hc1)⟩
    · cases h
  · intro r i hmem
    obtain ⟨l1, hl1, r1, c1, hr1, hc1, h | ⟨i1, h, h1, h2⟩⟩ :=
      mem_renderAccesses symbols 1 _ hw hmem
    · cases h
    · cases h
      exact ⟨hr1, h1, h2⟩
  · intro r c hr hc
    exact Option.isSome_iff_exists.2 (readCell_isSome hsh hr hc)
  · intro PixelRune
    obtain ⟨log, hlog, hent⟩ := histogramLog_spec PixelRune hsh
    refine ⟨_, log, printHistogram_eq PixelRune hsh, hlog, ?_⟩
    intro r c hmem
    obtain ⟨_, _, _, _, _, _, _, h⟩ := hent _ hmem
    cases h
  · intro multi s
    refine ⟨_, visitedCells s.startdate 364, schedule_spec hsh multi s, rfl, ?_⟩
    intro v hv
    obtain ⟨k, hk⟩ := List.mem_iff_getElem?.1 hv
    have hlt : k < 364 := by
      have := (List.getElem?_eq_some.1 hk).1
      simpa [visitedCells_length] using this
    rw [visitedCells_getElem? _ hlt] at hk
    cases hk
    exact ⟨by simp only; omega, by simp only; omega⟩
  · intro PixelRune dryrun usessh user repo text multi startdate
    obtain ⟨_, _, _, _, _, hbuf⟩ :=
      buildScriptBuffer_spec PixelRune dryrun usessh user repo text multi startdate symbols
        hsafe
    exact ⟨_, hbuf⟩

/-- Glyphs with more rows and longer rows than needed: every access stays in bounds. -/
theorem index_safety_witness :
    (∀ s ∈ [(⟨List.replicate 9 [1, 2, 3, 4, 0], 3⟩ : Symbol), glyphI], s.indexSafe) ∧
    (∀ a ∈ renderAccesses [(⟨List.replicate 9 [1, 2, 3, 4, 0], 3⟩ : Symbol), glyphI] 1,
      a.inBounds) ∧
    ∃ st, composite [(⟨List.replicate 9 [1, 2, 3, 4, 0], 3⟩ : Symbol), glyphI] = some st ∧
      gridShape st.pixels :=
  ⟨by decide,
    (index_safety [(⟨List.replicate 9 [1, 2, 3, 4, 0], 3⟩ : Symbol), glyphI]
      (by decide)).2.2.1,
    (index_safety [(⟨List.replicate 9 [1, 2, 3, 4, 0], 3⟩ : Symbol), glyphI]
      (by decide)).2.2.2.imp fun _ h => ⟨h.1, h.2.1⟩⟩

end Gofiti
